import Mathlib

/-!
# cc2530-frame: ZNP request framing and response decoding

A shallow embedding of `src/cc2530-frame/main.go`.

* A byte is a natural number below 256; `^^^` is Go's `^` on bytes and `|||` is Go's `|`.
* `log.Fatalf` ends the process: every function that can reach it returns a `Fatal` value
  in place of its result, together with the state of the world at that moment.
* The serial device is a `World`: the bytes it has yet to deliver, the behaviour of the
  coming read calls (how many bytes each one hands over, or which failure it reports) and
  the characters written to standard output so far.
* The function `main` runs in a `Sys`: the world, the outcomes of the coming calls of
  `open`, and the trace of the operations performed so far (open, write, close, sleep,
  start of the response loop). The trace records that `time.Sleep` is called and with
  which duration, an `int64` number of nanoseconds; time itself is not modelled.
-/

namespace CC2530

/-! ## Fatal exits -/

/-- The reasons for which the program stops through `log.Fatalf` (or a run-time panic). -/
inductive Fatal where
  /-- "Poll failed with rc = %d". -/
  | pollFailed : Fatal
  /-- "Unexpected error while reading %d bytes from input: %v" with the buffer length. -/
  | readFailed (n : Nat) : Fatal
  /-- "Could not parse hex value from '%s'." with the offending token. -/
  | parseFailed (tok : String) : Fatal
  /-- "Unexpected byte (%02x) found in place of SOF" with the byte read. -/
  | unexpectedSOF (b : Nat) : Fatal
  /-- "FCS byte contained incorrect XOR value. Expected %02x, but found %02x". -/
  | badFCS (expected actual : Nat) : Fatal
  /-- Go's run-time panic for a slice index outside the slice. -/
  | indexOutOfRange (i : Int) : Fatal
  /-- Go's run-time panic for `make` with a negative length. -/
  | negativeLen (n : Int) : Fatal
  /-- "Unable to open %s: %v". -/
  | openFailed : Fatal
  deriving DecidableEq, Repr

/-! ## `fmt.Sscanf(x, "%x", &b)` with `b` a `uint8` -/

/-- The white space of package `fmt` (its `space` table), the newline included. -/
def isSpace (c : Char) : Bool :=
  let n := c.toNat
  (0x0009 ≤ n && n ≤ 0x000d) || n == 0x0020 || n == 0x0085 || n == 0x00a0 || n == 0x1680 ||
  (0x2000 ≤ n && n ≤ 0x200a) || (0x2028 ≤ n && n ≤ 0x2029) || n == 0x202f || n == 0x205f ||
  n == 0x3000

/-- The value of a character of `fmt`'s `hexadecimalDigits`, `none` for any other character. -/
def hexVal (c : Char) : Option Nat :=
  let n := c.toNat
  if 48 ≤ n ∧ n ≤ 57 then some (n - 48)
  else if 97 ≤ n ∧ n ≤ 102 then some (n - 87)
  else if 65 ≤ n ∧ n ≤ 70 then some (n - 55)
  else none

/-- The scanner's `SkipSpace` as `Sscanf` runs it before a verb: leading white space is
dropped; a newline is an error ("unexpected newline"), here `none`. -/
def skipSpace : List Char → Option (List Char)
  | [] => some []
  | c :: cs =>
    if c = '\n' then none
    else if isSpace c then skipSpace cs
    else some (c :: cs)

/-- The scanner's `scanNumber` loop followed by `strconv.ParseUint(tok, 16, 64)`: the value of
the longest prefix of hexadecimal digits (`acc` is the value of the digits seen so far).
What follows the digits is left unread. -/
def scanHexDigits : List Char → Nat → Nat
  | [], acc => acc
  | c :: cs, acc =>
    match hexVal c with
    | some d => scanHexDigits cs (16 * acc + d)
    | none => acc

/-- The call `fmt.Sscanf(x, "%x", &b)` for a `uint8` target `b`: `some v` when it returns
`n = 1` and a nil error, having stored `v`; `none` when it reports an error (no input after
the white space, no hexadecimal digit, or a value that does not fit: `ParseUint` rejects
what exceeds 64 bits and the scanner rejects what exceeds 8 bits). -/
def sscanHex (x : String) : Option Nat :=
  match skipSpace x.data with
  | none => none
  | some [] => none
  | some (c :: cs) =>
    match hexVal c with
    | none => none
    | some d =>
      let v := scanHexDigits cs d
      if v < 256 then some v else none

/-! ## Slices -/

/-- The assignment `s[i] = v` on a Go slice: a run-time panic when `i` is outside `s`. -/
def setIdx (s : List Nat) (i : Int) (v : Nat) : Except Fatal (List Nat) :=
  if 0 ≤ i ∧ i < s.length then .ok (s.set i.toNat v) else .error (.indexOutOfRange i)

/-! ## `buildFrame` -/

/-- The loop `for i, x := range args` of `buildFrame`: token `i` is scanned into
`frame[i+2]` (the address is taken before the scan runs) and folded into `xor`. -/
def buildLoop : List String → Nat → List Nat → Nat → Except Fatal (List Nat × Nat)
  | [], _, frame, xor => .ok (frame, xor)
  | x :: rest, i, frame, xor =>
    if i + 2 < frame.length then
      match sscanHex x with
      | none => .error (.parseFailed x)
      | some v => buildLoop rest (i + 1) (frame.set (i + 2) v) (xor ^^^ v)
    else .error (.indexOutOfRange (i + 2))

/-- The function `buildFrame`: builds a frame from the specified hex values. -/
def buildFrame (args : List String) : Except Fatal (List Nat) :=
  let length : Int := (args.length : Int) - 2
  if length + 5 < 0 then .error (.negativeLen (length + 5)) else
  let frame := List.replicate (length + 5).toNat 0
  match setIdx frame 0 0xfe with
  | .error e => .error e
  | .ok frame =>
  match setIdx frame 1 (length % 256).toNat with
  | .error e => .error e
  | .ok frame =>
  let xor := (length % 256).toNat
  match buildLoop args 0 frame xor with
  | .error e => .error e
  | .ok (frame, xor) => setIdx frame (length + 4) xor

/-! ## The device and standard output -/

/-- What the device does at one round of the read loop. -/
inductive ReadEvent where
  /-- The call `C.poll` returns something other than 0 or 1. -/
  | pollFails : ReadEvent
  /-- The call `in.Read` returns an error. -/
  | readFails : ReadEvent
  /-- The call `in.Read` hands over at most `k` of the bytes it holds. -/
  | delivers (k : Nat) : ReadEvent
  deriving DecidableEq, Repr

/-- The world the program runs in. -/
structure World where
  /-- The bytes the device has yet to deliver, in order; a read at their end reports
  `io.EOF`, as an `*os.File` does at the end of a file or of a closed pipe. -/
  input : List Nat
  /-- The behaviour of the coming rounds of the read loop, one event per round; once the
  list is used up every read hands over as many bytes as are asked for and available. -/
  script : List ReadEvent
  /-- The text written to standard output so far. -/
  out : String
  deriving DecidableEq, Repr

/-- The result of `C.poll` followed by `in.Read(bytes[offset:])`. -/
inductive ReadOutcome where
  | pollError : ReadOutcome
  | readError : ReadOutcome
  | bytes (chunk : List Nat) : ReadOutcome
  deriving DecidableEq, Repr

/-- The read of an `*os.File` into a slice of `room > 0` bytes when the device hands over at
most `k` bytes: a count of zero is reported as the error `io.EOF`. -/
def deliver (k room : Nat) (w : World) : ReadOutcome × World :=
  if w.input.take (min k room) = [] then (.readError, w)
  else (.bytes (w.input.take (min k room)), { w with input := w.input.drop (min k room) })

/-- One round of the loop of `mustRead`: `C.poll`, then `in.Read` into the `room` bytes of
the buffer that are still free. -/
def pollRead (room : Nat) (w : World) : ReadOutcome × World :=
  match w.script with
  | [] => deliver room room w
  | .pollFails :: rest => (.pollError, { w with script := rest })
  | .readFails :: rest => (.readError, { w with script := rest })
  | .delivers k :: rest => deliver k room { w with script := rest }

/-- Whether an event is a read that hands over at least one byte. -/
def ReadEvent.isData : ReadEvent → Bool
  | .delivers k => decide (0 < k)
  | _ => false

/-- A device that fails no poll and no read and hands over at least one byte per call. -/
def Steady (script : List ReadEvent) : Prop :=
  ∀ e ∈ script, e.isData = true

instance (script : List ReadEvent) : Decidable (Steady script) := by
  unfold Steady; infer_instance

/-! ## `mustRead` -/

/-- The loop `for offset < len(bytes)` of `mustRead` for a buffer of `n` bytes of which the
first `got.length` (the offset) are filled with `got`. -/
def mustReadLoop (n : Nat) (got : List Nat) (w : World) : Except Fatal (List Nat) × World :=
  if got.length < n then
    match h : pollRead (n - got.length) w with
    | (.pollError, w') => (.error .pollFailed, w')
    | (.readError, w') => (.error (.readFailed n), w')
    | (.bytes chunk, w') => mustReadLoop n (got ++ chunk) w'
  else (.ok got, w)
termination_by n - got.length
decreasing_by
  have hd : ∀ (k : Nat) (v : World), deliver k (n - got.length) v = (.bytes chunk, w') →
      chunk ≠ [] := by
    intro k v hv
    unfold deliver at hv
    split at hv
    · simp at hv
    · simp only [Prod.mk.injEq, ReadOutcome.bytes.injEq] at hv
      rw [← hv.1]; assumption
  have hc : 0 < chunk.length := by
    apply List.length_pos.mpr
    unfold pollRead at h
    split at h
    · exact hd _ _ h
    · simp at h
    · simp at h
    · exact hd _ _ h
  simp only [List.length_append]
  omega

/-- The function `mustRead` on a buffer of `n` bytes: reads the specified number of bytes
from the input stream or dies trying. On return the result is `len(bytes)` and the buffer. -/
def mustRead (n : Nat) (w : World) : Except Fatal (Nat × List Nat) × World :=
  match mustReadLoop n [] w with
  | (.error e, w') => (.error e, w')
  | (.ok buf, w') => (.ok (n, buf), w')

/-! ## `processResponse` -/

/-- The digit `fmt` prints for `d < 16` under the verb `%x`. -/
def hexDigit (d : Nat) : Char :=
  if d < 10 then Char.ofNat (48 + d) else Char.ofNat (87 + d)

/-- The text of `%02x` for a byte. -/
def fmt02x (b : Nat) : String :=
  String.mk [hexDigit (b / 16), hexDigit (b % 16)]

/-- The function `processResponse`: reads a response frame from the UART, prints it and
returns its subsystem byte `header[1]`. -/
def processResponse (w : World) : Except Fatal Nat × World :=
  match mustRead 1 w with
  | (.error e, w) => (.error e, w)
  | (.ok (_, sof), w) =>
  if sof.getD 0 0 ≠ 0xfe then (.error (.unexpectedSOF (sof.getD 0 0)), w) else
  match mustRead 3 w with
  | (.error e, w) => (.error e, w)
  | (.ok (_, header), w) =>
  let xor := header.getD 0 0 ^^^ header.getD 1 0 ^^^ header.getD 2 0
  match mustRead (header.getD 0 0) w with
  | (.error e, w) => (.error e, w)
  | (.ok (_, packet), w) =>
  let xor := packet.foldl (fun x b => x ^^^ b) xor
  match mustRead 1 w with
  | (.error e, w) => (.error e, w)
  | (.ok (_, fcs), w) =>
  if xor = fcs.getD 0 0 then
    let out := w.out ++ fmt02x (header.getD 1 0) ++ " " ++ fmt02x (header.getD 2 0)
    let out := packet.foldl (fun o b => o ++ " " ++ fmt02x b) out
    let out := out ++ "\n"
    (.ok (header.getD 1 0), { w with out := out })
  else (.error (.badFCS xor (fcs.getD 0 0)), w)

/-- The line `processResponse` prints for a frame with subsystem byte `s`, command id `c`
and payload `p`: the three `Printf` calls, run on an empty output. -/
def frameLine (s c : Nat) (p : List Nat) : String :=
  p.foldl (fun o b => o ++ " " ++ fmt02x b) (fmt02x s ++ " " ++ fmt02x c) ++ "\n"

/-! ## Requests as command lines -/

/-- The command line that names the subsystem byte `s`, the command id `c` and the payload
`p`, each byte as two lowercase hexadecimal digits. -/
def hexArgs (s c : Nat) (p : List Nat) : List String :=
  (s :: c :: p).map fmt02x

/-- The wire bytes `buildFrame` returns for the request `(s, c, p)`, nothing if it fails. -/
def encode (s c : Nat) (p : List Nat) : List Nat :=
  match buildFrame (hexArgs s c p) with
  | .ok frame => frame
  | .error _ => []

/-! ## Frames -/

/-- A frame of the protocol: subsystem byte, command id and payload. -/
structure Frame where
  sub : Nat
  cmd : Nat
  payload : List Nat
  deriving DecidableEq, Repr

/-- A frame whose fields are bytes and whose payload has at most 253 bytes. -/
def Frame.Valid (f : Frame) : Prop :=
  f.sub < 256 ∧ f.cmd < 256 ∧ (∀ b ∈ f.payload, b < 256) ∧ f.payload.length ≤ 253

instance (f : Frame) : Decidable f.Valid := by
  unfold Frame.Valid; infer_instance

/-- The wire bytes of a frame, as `buildFrame` writes them. -/
def Frame.wire (f : Frame) : List Nat :=
  encode f.sub f.cmd f.payload

/-- The line `processResponse` prints for a frame. -/
def Frame.line (f : Frame) : String :=
  frameLine f.sub f.cmd f.payload

/-- The lines `processResponse` prints for a sequence of frames, in order. -/
def printed : List Frame → String
  | [] => ""
  | f :: fs => f.line ++ printed fs

/-! ## Checksum and printed line -/

/-- The XOR of a list of bytes, from left to right, starting from `x`. -/
def xorAll (x : Nat) (bs : List Nat) : Nat :=
  bs.foldl (fun a b => a ^^^ b) x

/-! ## Facts about one read -/

theorem deliver_bytes {k room : Nat} {w w' : World} {chunk : List Nat}
    (h : deliver k room w = (.bytes chunk, w')) :
    chunk ≠ [] ∧ chunk = w.input.take chunk.length ∧ w'.input = w.input.drop chunk.length ∧
    chunk.length ≤ room ∧ w'.out = w.out ∧ w'.script = w.script := by
  unfold deliver at h
  split at h
  · simp at h
  · rename_i hne
    simp only [Prod.mk.injEq, ReadOutcome.bytes.injEq] at h
    obtain ⟨h1, h2⟩ := h
    subst h1; subst h2
    refine ⟨hne, ?_, ?_, ?_, rfl, rfl⟩
    · simp [List.length_take, List.take_take]
    · simp only [List.length_take]
      by_cases hl : min k room ≤ w.input.length
      · rw [Nat.min_eq_left hl]
      · have hl2 : w.input.length ≤ min k room := by omega
        rw [Nat.min_eq_right hl2, List.drop_of_length_le hl2, List.drop_of_length_le (le_refl _)]
    · simp only [List.length_take]; omega

theorem pollRead_bytes {room : Nat} {w w' : World} {chunk : List Nat}
    (h : pollRead room w = (.bytes chunk, w')) :
    chunk ≠ [] ∧ chunk = w.input.take chunk.length ∧ w'.input = w.input.drop chunk.length ∧
    chunk.length ≤ room ∧ w'.out = w.out := by
  unfold pollRead at h
  split at h
  · have := deliver_bytes h; tauto
  · simp at h
  · simp at h
  · have := deliver_bytes h; simp at this; tauto

theorem deliver_some (k room : Nat) (w : World) (hk : 0 < k) (hr : 0 < room)
    (hi : w.input ≠ []) :
    ∃ chunk w', deliver k room w = (.bytes chunk, w') ∧ w'.script = w.script := by
  unfold deliver
  have hne : w.input.take (min k room) ≠ [] := by
    cases hw : w.input with
    | nil => exact absurd hw hi
    | cons a l =>
      have : min k room = (min k room - 1) + 1 := by omega
      rw [this, List.take_succ_cons]
      exact List.cons_ne_nil _ _
  rw [if_neg hne]
  exact ⟨_, _, rfl, rfl⟩

theorem deliver_none (k room : Nat) (w : World) (hi : w.input = []) :
    deliver k room w = (.readError, w) := by
  unfold deliver
  rw [hi]
  simp

theorem pollRead_steady (room : Nat) (w : World) (hs : Steady w.script) (hr : 0 < room)
    (hi : w.input ≠ []) :
    ∃ chunk w', pollRead room w = (.bytes chunk, w') ∧ Steady w'.script := by
  unfold pollRead
  split
  · rename_i hnil
    obtain ⟨c, w', h1, h2⟩ := deliver_some room room w hr hr hi
    exact ⟨c, w', h1, by rw [h2]; exact hs⟩
  · rename_i rest hcons
    have := hs .pollFails (by rw [hcons]; exact List.mem_cons_self _ _)
    simp [ReadEvent.isData] at this
  · rename_i rest hcons
    have := hs .readFails (by rw [hcons]; exact List.mem_cons_self _ _)
    simp [ReadEvent.isData] at this
  · rename_i k rest hcons
    have hk := hs (.delivers k) (by rw [hcons]; exact List.mem_cons_self _ _)
    simp only [ReadEvent.isData, decide_eq_true_eq] at hk
    obtain ⟨c, w', h1, h2⟩ :=
      deliver_some k room { w with script := rest } hk hr hi
    refine ⟨c, w', h1, ?_⟩
    rw [h2]
    intro e he
    exact hs e (by rw [hcons]; exact List.mem_cons_of_mem _ he)

theorem pollRead_eof (room : Nat) (w : World) (hs : Steady w.script) (hi : w.input = []) :
    ∃ w', pollRead room w = (.readError, w') ∧ w'.input = [] ∧ w'.out = w.out ∧
      Steady w'.script := by
  unfold pollRead
  split
  · exact ⟨w, deliver_none _ _ w hi, hi, rfl, hs⟩
  · rename_i rest hcons
    have := hs .pollFails (by rw [hcons]; exact List.mem_cons_self _ _)
    simp [ReadEvent.isData] at this
  · rename_i rest hcons
    have := hs .readFails (by rw [hcons]; exact List.mem_cons_self _ _)
    simp [ReadEvent.isData] at this
  · rename_i k rest hcons
    refine ⟨{ w with script := rest }, deliver_none _ _ _ hi, hi, rfl, ?_⟩
    intro e he
    exact hs e (by rw [hcons]; exact List.mem_cons_of_mem _ he)

/-! ## Facts about `mustRead` -/

/-- Whatever the device does, a `mustRead` loop that returns has filled the buffer with the
next bytes of the input in order, has consumed exactly those and has printed nothing. -/
theorem mustReadLoop_ok (n : Nat) : ∀ (m : Nat) (got : List Nat) (w w' : World) (buf : List Nat),
    n - got.length = m → mustReadLoop n got w = (.ok buf, w') →
    buf = got ++ w.input.take (n - got.length) ∧ w'.input = w.input.drop (n - got.length) ∧
    w'.out = w.out ∧ n - got.length ≤ w.input.length := by
  intro m
  induction m using Nat.strong_induction_on with
  | _ m ih =>
    intro got w w' buf hm h
    rw [mustReadLoop] at h
    split at h
    · rename_i hlt
      split at h
      · simp at h
      · simp at h
      · rename_i chunk w1 hp
        obtain ⟨hne, htake, hdrop, hroom, hout⟩ := pollRead_bytes hp
        have hpos := List.length_pos.mpr hne
        have hlen : (got ++ chunk).length = got.length + chunk.length := List.length_append _ _
        obtain ⟨h1, h2, h3, h4⟩ :=
          ih (n - (got ++ chunk).length) (by rw [hlen]; omega) (got ++ chunk) w1 w' buf rfl h
        rw [hlen] at h1 h2 h4
        rw [hdrop, List.length_drop] at h4
        rw [hdrop] at h1 h2
        rw [List.drop_drop] at h2
        have hcl : chunk.length ≤ w.input.length := by
          have := congrArg List.length htake
          rw [List.length_take] at this
          omega
        have e1 : n - got.length = chunk.length + (n - (got.length + chunk.length)) := by omega
        refine ⟨?_, ?_, h3.trans hout, by omega⟩
        · rw [h1, List.append_assoc, e1, List.take_add, ← htake]
        · rw [h2]; congr 1; omega
    · rename_i hge
      simp only [Prod.mk.injEq, Except.ok.injEq] at h
      obtain ⟨h1, h2⟩ := h
      subst h1; subst h2
      have : n - got.length = 0 := by omega
      simp [this]

/-- On a device that fails no poll and no read and hands over at least one byte per call,
the loop of `mustRead` returns whenever the input holds the bytes that are still missing. -/
theorem mustReadLoop_steady (n : Nat) : ∀ (m : Nat) (got : List Nat) (w : World),
    n - got.length = m → Steady w.script → n - got.length ≤ w.input.length →
    ∃ w', mustReadLoop n got w = (.ok (got ++ w.input.take (n - got.length)), w') ∧
      w'.input = w.input.drop (n - got.length) ∧ w'.out = w.out ∧ Steady w'.script := by
  intro m
  induction m using Nat.strong_induction_on with
  | _ m ih =>
    intro got w hm hs hle
    by_cases hlt : got.length < n
    · have hi : w.input ≠ [] := by
        intro h0
        rw [h0] at hle
        simp at hle
        omega
      obtain ⟨chunk, w1, hp, hs1⟩ := pollRead_steady (n - got.length) w hs (by omega) hi
      obtain ⟨hne, htake, hdrop, hroom, hout⟩ := pollRead_bytes hp
      have hpos := List.length_pos.mpr hne
      have hlen : (got ++ chunk).length = got.length + chunk.length := List.length_append _ _
      have hcl : chunk.length ≤ w.input.length := by
        have := congrArg List.length htake
        rw [List.length_take] at this
        omega
      obtain ⟨w', h1, h2, h3, h4⟩ :=
        ih (n - (got ++ chunk).length) (by rw [hlen]; omega) (got ++ chunk) w1 rfl hs1
          (by rw [hlen, hdrop, List.length_drop]; omega)
      refine ⟨w', ?_, ?_, h3.trans hout, h4⟩
      · rw [mustReadLoop, if_pos hlt]
        split
        · rename_i heq; rw [hp] at heq; simp at heq
        · rename_i heq; rw [hp] at heq; simp at heq
        · rename_i c2 w2 heq
          rw [hp] at heq
          simp only [Prod.mk.injEq, ReadOutcome.bytes.injEq] at heq
          obtain ⟨hc, hw⟩ := heq
          subst hc; subst hw
          rw [h1, hlen, hdrop, List.append_assoc]
          have e1 : n - got.length = chunk.length + (n - (got.length + chunk.length)) := by
            omega
          rw [e1, List.take_add, ← htake]
      · rw [h2, hlen, hdrop, List.drop_drop]; congr 1; omega
    · have h0 : n - got.length = 0 := by omega
      refine ⟨w, ?_, ?_, rfl, hs⟩
      · rw [mustReadLoop, if_neg hlt, h0]; simp
      · rw [h0]; rfl

/-- On such a device the loop of `mustRead` dies with the read error when the input ends
before the buffer is full. -/
theorem mustReadLoop_short (n : Nat) : ∀ (m : Nat) (got : List Nat) (w : World),
    n - got.length = m → Steady w.script → w.input.length < n - got.length →
    ∃ w', mustReadLoop n got w = (.error (.readFailed n), w') ∧ w'.input = [] ∧
      w'.out = w.out := by
  intro m
  induction m using Nat.strong_induction_on with
  | _ m ih =>
    intro got w hm hs hlt2
    have hlt : got.length < n := by omega
    by_cases hi : w.input = []
    · obtain ⟨w1, hp, hi1, ho1, _⟩ := pollRead_eof (n - got.length) w hs hi
      refine ⟨w1, ?_, hi1, ho1⟩
      rw [mustReadLoop, if_pos hlt]
      split
      · rename_i heq; rw [hp] at heq; simp at heq
      · rename_i heq; rw [hp] at heq
        simp only [Prod.mk.injEq, true_and] at heq
        rw [heq]
      · rename_i heq; rw [hp] at heq; simp at heq
    · obtain ⟨chunk, w1, hp, hs1⟩ := pollRead_steady (n - got.length) w hs (by omega) hi
      obtain ⟨hne, htake, hdrop, hroom, hout⟩ := pollRead_bytes hp
      have hpos := List.length_pos.mpr hne
      have hlen : (got ++ chunk).length = got.length + chunk.length := List.length_append _ _
      have hcl : chunk.length ≤ w.input.length := by
        have := congrArg List.length htake
        rw [List.length_take] at this
        omega
      obtain ⟨w', h1, h2, h3⟩ :=
        ih (n - (got ++ chunk).length) (by rw [hlen]; omega) (got ++ chunk) w1 rfl hs1
          (by rw [hlen, hdrop, List.length_drop]; omega)
      refine ⟨w', ?_, h2, h3.trans hout⟩
      rw [mustReadLoop, if_pos hlt]
      split
      · rename_i heq; rw [hp] at heq; simp at heq
      · rename_i heq; rw [hp] at heq; simp at heq
      · rename_i c2 w2 heq
        rw [hp] at heq
        simp only [Prod.mk.injEq, ReadOutcome.bytes.injEq] at heq
        obtain ⟨hc, hw⟩ := heq
        subst hc; subst hw
        exact h1

theorem mustRead_ok {n : Nat} {w w' : World} {r : Nat × List Nat}
    (h : mustRead n w = (.ok r, w')) :
    r = (n, w.input.take n) ∧ w'.input = w.input.drop n ∧ w'.out = w.out ∧
    n ≤ w.input.length := by
  unfold mustRead at h
  split at h
  · simp at h
  · rename_i buf w1 heq
    simp only [Prod.mk.injEq, Except.ok.injEq] at h
    obtain ⟨hr, hw⟩ := h
    subst hr; subst hw
    have := mustReadLoop_ok n _ [] w w1 buf rfl heq
    simpa using this

theorem mustRead_steady (n : Nat) (w : World) (hs : Steady w.script)
    (hle : n ≤ w.input.length) :
    ∃ w', mustRead n w = (.ok (n, w.input.take n), w') ∧ w'.input = w.input.drop n ∧
      w'.out = w.out ∧ Steady w'.script := by
  obtain ⟨w', h1, h2, h3, h4⟩ := mustReadLoop_steady n _ [] w rfl hs (by simpa using hle)
  refine ⟨w', ?_, by simpa using h2, h3, h4⟩
  unfold mustRead
  rw [h1]
  simp

theorem mustRead_short (n : Nat) (w : World) (hs : Steady w.script)
    (hlt : w.input.length < n) :
    ∃ w', mustRead n w = (.error (.readFailed n), w') ∧ w'.input = [] ∧ w'.out = w.out := by
  obtain ⟨w', h1, h2, h3⟩ := mustReadLoop_short n _ [] w rfl hs (by simpa using hlt)
  refine ⟨w', ?_, h2, h3⟩
  unfold mustRead
  rw [h1]

/-! ## Facts about `processResponse` -/

theorem foldl_print (p : List Nat) (a b : String) :
    p.foldl (fun o x => o ++ " " ++ fmt02x x) (a ++ b) =
      a ++ p.foldl (fun o x => o ++ " " ++ fmt02x x) b := by
  induction p generalizing b with
  | nil => rfl
  | cons x xs ih =>
    simp only [List.foldl_cons]
    rw [String.append_assoc, String.append_assoc, ih, String.append_assoc]

/-- On a steady device whose input starts with a start-of-frame byte, three header bytes,
`len` further bytes and one more byte, `processResponse` reads exactly these and compares
the running XOR with the last of them. -/
theorem processResponse_steady (w : World) (hs : Steady w.script) (len s c fcs : Nat)
    (p rest : List Nat) (hw : w.input = 0xfe :: len :: s :: c :: (p ++ fcs :: rest))
    (hp : p.length = len) :
    ∃ w1, w1.input = rest ∧ w1.out = w.out ∧ Steady w1.script ∧
      processResponse w =
        if xorAll (len ^^^ s ^^^ c) p = fcs then
          (.ok s, { w1 with out := w.out ++ frameLine s c p })
        else (.error (.badFCS (xorAll (len ^^^ s ^^^ c) p) fcs), w1) := by
  obtain ⟨wa, ha, hia, hoa, hsa⟩ := mustRead_steady 1 w hs (by rw [hw]; simp)
  rw [hw] at ha hia
  simp only [List.take_succ_cons, List.take_zero, List.drop_succ_cons, List.drop_zero] at ha hia
  obtain ⟨wb, hb, hib, hob, hsb⟩ := mustRead_steady 3 wa hsa (by rw [hia]; simp)
  rw [hia] at hb hib
  simp only [List.take_succ_cons, List.take_zero, List.drop_succ_cons, List.drop_zero] at hb hib
  obtain ⟨wc, hc, hic, hoc, hsc⟩ := mustRead_steady len wb hsb (by rw [hib]; simp; omega)
  rw [hib, ← hp] at hc hic
  simp only [List.take_left', List.drop_left'] at hc hic
  obtain ⟨wd, hd, hid, hod, hsd⟩ := mustRead_steady 1 wc hsc (by rw [hic]; simp)
  rw [hic] at hd hid
  simp only [List.take_succ_cons, List.take_zero, List.drop_succ_cons, List.drop_zero] at hd hid
  refine ⟨wd, hid, by rw [hod, hoc, hob, hoa], hsd, ?_⟩
  unfold processResponse xorAll
  rw [ha]
  simp only [List.getD_cons_zero, ne_eq, not_true_eq_false, if_false]
  rw [hb]
  simp only [List.getD_cons_zero, List.getD_cons_succ]
  rw [← hp, hc]
  simp only []
  rw [hd]
  simp only [List.getD_cons_zero]
  split
  · congr 2
    have e : w.out ++ fmt02x s ++ " " ++ fmt02x c = w.out ++ (fmt02x s ++ " " ++ fmt02x c) := by
      simp only [String.append_assoc]
    rw [hod, hoc, hob, hoa, frameLine, e, foldl_print, String.append_assoc]
  · rfl

/-- Whatever the device does, a call of `processResponse` that returns has consumed at least
one byte of the input. -/
theorem processResponse_ok_lt {w w' : World} {x : Nat} (h : processResponse w = (.ok x, w')) :
    w'.input.length < w.input.length := by
  unfold processResponse at h
  split at h
  · simp at h
  · rename_i r1 sof wa h1
    obtain ⟨-, hi1, -, hl1⟩ := mustRead_ok h1
    split at h
    · simp at h
    · split at h
      · simp at h
      · rename_i r2 header wb h2
        obtain ⟨-, hi2, -, -⟩ := mustRead_ok h2
        simp only [] at h
        split at h
        · simp at h
        · rename_i r3 packet wc h3
          obtain ⟨-, hi3, -, -⟩ := mustRead_ok h3
          split at h
          · simp at h
          · rename_i r4 fcs wd h4
            obtain ⟨-, hi4, -, -⟩ := mustRead_ok h4
            split at h
            · simp only [Prod.mk.injEq, Except.ok.injEq] at h
              obtain ⟨-, hw⟩ := h
              subst hw
              simp only [hi4, hi3, hi2, hi1, List.length_drop]
              omega
            · simp at h

/-! ## The response loop of `main` -/

/-- The loop `for { ... }` at the end of `main`, entered when `stdout` is not set, with
`r = frame[2]` the subsystem byte of the request: frames are read and printed until one
carries `r | 0x20` or `r`. -/
def matchLoop (r : Nat) (w : World) : Except Fatal Unit × World :=
  match h : processResponse w with
  | (.error e, w') => (.error e, w')
  | (.ok responseSubsysId, w') =>
    if responseSubsysId = (r ||| 0x20) ∨ responseSubsysId = r then (.ok (), w')
    else matchLoop r w'
termination_by w.input.length
decreasing_by exact processResponse_ok_lt h

/-! ## `main` -/

/-- The file `main` writes to and reads from: standard output, or the tty as returned by
the `k`-th successful call of `open` (counted from 0). -/
inductive Handle where
  | stdout : Handle
  | tty (k : Nat) : Handle
  deriving DecidableEq, Repr

/-- The operations `main` performs on its files and on the clock, in order. -/
inductive Op where
  /-- The call `open(tty)` returns the handle `tty k`. -/
  | opened (k : Nat) : Op
  /-- The call `io.Write(bytes)` on the handle. -/
  | write (h : Handle) (bytes : List Nat) : Op
  /-- The call `io.Close()` on the handle. -/
  | close (h : Handle) : Op
  /-- The call `time.Sleep(d)` for a duration `d` of `nanos` nanoseconds. -/
  | sleep (nanos : Int) : Op
  /-- The response loop starts to read from the handle. -/
  | respond (h : Handle) : Op
  deriving DecidableEq, Repr

/-- The state `main` runs in. -/
structure Sys where
  /-- The device as the response loop reads it, and the text printed so far. -/
  world : World
  /-- Whether the coming calls of `serial.OpenPort` succeed, one entry per call; once the
  list is used up every call succeeds. -/
  opens : List Bool
  /-- The number of ttys opened so far. -/
  count : Nat
  /-- The operations performed so far. -/
  trace : List Op
  deriving DecidableEq, Repr

/-- How the process ends. -/
inductive Exit where
  /-- The function `main` returns. -/
  | success : Exit
  /-- The usage text is printed and the process ends through `os.Exit(1)`. -/
  | usage : Exit
  /-- The process ends through `log.Fatalf` or a run-time panic. -/
  | fatal (f : Fatal) : Exit
  deriving DecidableEq, Repr

/-- The state after one more operation. -/
def Sys.log (s : Sys) (op : Op) : Sys :=
  { s with trace := s.trace ++ [op] }

/-- The function `open`: opens the device or dies with "Unable to open". -/
def openTty (s : Sys) : Except Fatal Handle × Sys :=
  match s.opens with
  | false :: rest => (.error .openFailed, { s with opens := rest })
  | _ =>
    (.ok (.tty s.count),
      { s with opens := s.opens.tail, count := s.count + 1,
               trace := s.trace ++ [.opened s.count] })

/-- The read `s[i]` of a Go slice: a run-time panic when `i` is outside `s`. -/
def getIdx (s : List Nat) (i : Nat) : Except Fatal Nat :=
  match s.get? i with
  | some v => .ok v
  | none => .error (.indexOutOfRange i)

/-- The condition `frame[2] == 0x41 && frame[3] == 0x00 && !stdout` of `main`, which sets
`reopen`; `&&` evaluates its right operand only when the left one holds. -/
def resetCommand (frame : List Nat) (stdout : Bool) : Except Fatal Bool :=
  match getIdx frame 2 with
  | .error e => .error e
  | .ok f2 =>
    if f2 = 0x41 then
      match getIdx frame 3 with
      | .error e => .error e
      | .ok f3 => .ok (decide (f3 = 0x00) && !stdout)
    else .ok false

/-- The value of an integer as Go's `int64`: the integer of `[-2^63, 2^63)` that is
congruent to it modulo `2^64`. -/
def toInt64 (x : Int) : Int :=
  (x + 2 ^ 63) % 2 ^ 64 - 2 ^ 63

/-- The duration `time.Second * time.Duration(delay)` that `main` hands to `time.Sleep`,
in nanoseconds: `time.Duration` is `int64`, `time.Second` is `1000000000` and the product
wraps around. -/
def sleepNanos (delay : Int) : Int :=
  toInt64 (1000000000 * toInt64 delay)

/-- The block `if reopen { ... }` of `main`: close, sleep, open, write the byte `0xEF`,
close, open. The result is the handle `io` holds afterwards. -/
def resetSequence (delay : Int) (io : Handle) (s : Sys) : Except Fatal Handle × Sys :=
  let s := s.log (.close io)
  let s := s.log (.sleep (sleepNanos delay))
  match openTty s with
  | (.error e, s) => (.error e, s)
  | (.ok io, s) =>
  let s := s.log (.write io [0xef])
  let s := s.log (.close io)
  openTty s

/-- The text of the `Printf` in the usage branch of `main`. -/
def usageText : String :=
  "usage: cc2530-frame \x7boptions\x7d [subSysId] [cmdId] [hex...]\n"

/-- The function `main` after `flag.Parse()`, for the values of the flags `stdout` and
`delay` and the positional arguments `args`. -/
def main (stdout : Bool) (delay : Int) (args : List String) (s : Sys) : Exit × Sys :=
  let length : Int := (args.length : Int) - 2
  if length < 0 ∨ length > 255 then
    (.usage, { s with world := { s.world with out := s.world.out ++ usageText } })
  else
  match buildFrame args with
  | .error e => (.fatal e, s)
  | .ok frame =>
  match resetCommand frame stdout with
  | .error e => (.fatal e, s)
  | .ok reopen =>
  match (if stdout then (.ok .stdout, s) else openTty s) with
  | (.error e, s) => (.fatal e, s)
  | (.ok io, s) =>
  let s := s.log (.write io frame)
  match (if reopen then resetSequence delay io s else (.ok io, s)) with
  | (.error e, s) => (.fatal e, s)
  | (.ok io, s) =>
  if stdout then (.success, s)
  else
    match getIdx frame 2 with
    | .error e => (.fatal e, s)
    | .ok r =>
      let s := s.log (.respond io)
      match matchLoop r s.world with
      | (.error e, w) => (.fatal e, { s with world := w })
      | (.ok _, w) => (.success, { s with world := w })

/-- The value of a token that is exactly two hexadecimal digits, `none` for any other
token. -/
def twoHexValue (x : String) : Option Nat :=
  match x.data with
  | [a, b] =>
    match hexVal a, hexVal b with
    | some da, some db => some (16 * da + db)
    | _, _ => none
  | _ => none

/-- The base-16 value of a list of hexadecimal digits. -/
def hexNumber (ds : List Char) : Nat :=
  ds.foldl (fun acc c => 16 * acc + (hexVal c).getD 0) 0

/-- The shape of a token with leading digits of value `v`: white space other than a
newline, possibly none, then one or more hexadecimal digits `ds` of value `v`, then
nothing or a character that is no hexadecimal digit, followed by anything. -/
def TokenShape (x : String) (v : Nat) : Prop :=
  ∃ sp ds rest, x.data = sp ++ (ds ++ rest) ∧ (∀ c ∈ sp, isSpace c = true ∧ c ≠ '\n') ∧
    ds ≠ [] ∧ (∀ c ∈ ds, hexVal c ≠ none) ∧ (∀ c cs, rest = c :: cs → hexVal c = none) ∧
    hexNumber ds = v

/-- The assignment `frame[i] = v` together with its record: the frame after the write and
the list of the writes made so far, each as the index and the value written. -/
def putIdx (fw : List Nat × List (Int × Nat)) (i : Int) (v : Nat) :
    Except Fatal (List Nat × List (Int × Nat)) :=
  match setIdx fw.1 i v with
  | .error e => .error e
  | .ok frame => .ok (frame, fw.2 ++ [(i, v)])

/-- The loop of `buildFrame`, recording each write to `frame[i+2]`. -/
def buildLoopLog : List String → Nat → List Nat × List (Int × Nat) → Nat →
    Except Fatal ((List Nat × List (Int × Nat)) × Nat)
  | [], _, fw, xor => .ok (fw, xor)
  | x :: rest, i, fw, xor =>
    if i + 2 < fw.1.length then
      match sscanHex x with
      | none => .error (.parseFailed x)
      | some v =>
        buildLoopLog rest (i + 1)
          (fw.1.set (i + 2) v, fw.2 ++ [(((i + 2 : Nat) : Int), v)]) (xor ^^^ v)
    else .error (.indexOutOfRange (i + 2))

/-- The function `buildFrame`, recording every assignment to an element of `frame`: the
result is the frame and the list of the writes, in order, each as index and value. -/
def buildFrameLog (args : List String) : Except Fatal (List Nat × List (Int × Nat)) :=
  let length : Int := (args.length : Int) - 2
  if length + 5 < 0 then .error (.negativeLen (length + 5)) else
  let fw : List Nat × List (Int × Nat) := (List.replicate (length + 5).toNat 0, [])
  match putIdx fw 0 0xfe with
  | .error e => .error e
  | .ok fw =>
  match putIdx fw 1 (length % 256).toNat with
  | .error e => .error e
  | .ok fw =>
  let xor := (length % 256).toNat
  match buildLoopLog args 0 fw xor with
  | .error e => .error e
  | .ok (fw, xor) => putIdx fw (length + 4) xor

/-- The result of `buildFrameLog` without the record of writes. -/
def eraseLog : Except Fatal (List Nat × List (Int × Nat)) → Except Fatal (List Nat)
  | .ok fw => .ok fw.1
  | .error e => .error e

/-- The writes the loop of `buildFrame` makes for the scanned values `vals`, the first of
which belongs to argument `i`. -/
def loopWrites : Nat → List Nat → List (Int × Nat)
  | _, [] => []
  | i, v :: vs => (((i + 2 : Nat) : Int), v) :: loopWrites (i + 1) vs

/-- The indices of `frame` that `buildFrame` assigns to for `n` arguments, in the order of
the assignments: `0`, `1`, `i + 2` for each argument `i`, and `length + 4`. -/
def writeIndices (n : Nat) : List Int :=
  0 :: 1 :: ((List.range n).map (fun (i : Nat) => (i : Int) + 2) ++ [(n : Int) - 2 + 4])

/-- The condition under which the response loop of `main` stops on a frame whose
subsystem byte is `x`, for a request whose subsystem byte is `r`. -/
def responseMatches (r x : Nat) : Prop :=
  x = (r ||| 0x20) ∨ x = r

instance (r x : Nat) : Decidable (responseMatches r x) := by
  unfold responseMatches; infer_instance

/-! ## Facts about `buildFrame` -/

theorem hexVal_hexDigit : ∀ d < 16, hexVal (hexDigit d) = some d := by decide

theorem hexDigit_not_space : ∀ d < 16, isSpace (hexDigit d) = false ∧ hexDigit d ≠ '\n' := by
  decide

/-- A byte written as two lowercase hexadecimal digits scans back to itself. -/
theorem sscanHex_fmt02x (b : Nat) (hb : b < 256) : sscanHex (fmt02x b) = some b := by
  have h1 : b / 16 < 16 := by omega
  have h2 : b % 16 < 16 := by omega
  have hd : (fmt02x b).data = [hexDigit (b / 16), hexDigit (b % 16)] := rfl
  have hv : 16 * (b / 16) + b % 16 < 256 := by omega
  unfold sscanHex
  rw [hd]
  simp only [skipSpace, (hexDigit_not_space _ h1).1, (hexDigit_not_space _ h1).2, if_false,
    hexVal_hexDigit _ h1, scanHexDigits, hexVal_hexDigit _ h2, Bool.false_eq_true]
  rw [if_pos hv]
  congr 1
  omega

theorem map_sscanHex_fmt02x (bs : List Nat) (hb : ∀ b ∈ bs, b < 256) :
    (bs.map fmt02x).map sscanHex = bs.map some := by
  induction bs with
  | nil => rfl
  | cons b bs ih =>
    simp only [List.map_cons]
    rw [sscanHex_fmt02x b (hb b (List.mem_cons_self _ _)),
      ih (fun x hx => hb x (List.mem_cons_of_mem _ hx))]

/-- The loop of `buildFrame` on tokens that all scan: the values replace, in order, the
bytes of the frame from index `i + 2` on, and the running XOR takes each of them in. -/
theorem buildLoop_eq : ∀ (args : List String) (vals : List Nat) (i : Nat)
    (pre zs post : List Nat) (xor : Nat), args.map sscanHex = vals.map some →
    pre.length = i + 2 → zs.length = args.length →
    buildLoop args i (pre ++ (zs ++ post)) xor =
      .ok (pre ++ (vals ++ post), vals.foldl (fun x v => x ^^^ v) xor) := by
  intro args
  induction args with
  | nil =>
    intro vals i pre zs post xor hv _ hz
    cases vals with
    | nil =>
      have : zs = [] := List.length_eq_zero.mp hz
      subst this
      rfl
    | cons v vs => simp at hv
  | cons x rest ih =>
    intro vals i pre zs post xor hv hpre hz
    cases vals with
    | nil => simp at hv
    | cons v vs =>
      cases zs with
      | nil => simp at hz
      | cons z zs =>
        simp only [List.map_cons, List.cons.injEq] at hv
        obtain ⟨hx, hrest⟩ := hv
        have hlt : i + 2 < (pre ++ (z :: zs ++ post)).length := by
          simp only [List.length_append, List.length_cons]
          omega
        have hset : (pre ++ (z :: zs ++ post)).set (i + 2) v =
            (pre ++ [v]) ++ (zs ++ post) := by
          rw [List.set_append_right _ _ (by omega), hpre]
          simp
        rw [buildLoop, if_pos hlt, hx]
        simp only []
        rw [hset, ih vs (i + 1) (pre ++ [v]) zs post (xor ^^^ v) hrest
          (by simp only [List.length_append, List.length_cons, List.length_nil]; omega)
          (by simpa using hz)]
        simp

theorem setIdx_ok (s : List Nat) (i : Int) (v : Nat) (k : Nat) (hi : i = (k : Int))
    (hk : k < s.length) : setIdx s i v = .ok (s.set k v) := by
  subst hi
  unfold setIdx
  rw [if_pos ⟨by omega, by omega⟩]
  rfl

/-- The frame `buildFrame` returns when every token scans: the start-of-frame byte, the
length byte `(uint8)(len(args) - 2)`, the scanned values and the XOR of all but the first. -/
theorem buildFrame_eq (args : List String) (vals : List Nat)
    (hv : args.map sscanHex = vals.map some) :
    buildFrame args =
      .ok (0xfe :: (((args.length : Int) - 2) % 256).toNat ::
        (vals ++ [vals.foldl (fun x v => x ^^^ v) (((args.length : Int) - 2) % 256).toNat])) := by
  have hn : vals.length = args.length := by
    have := congrArg List.length hv
    simpa using this.symm
  have h5 : ((args.length : Int) - 2 + 5).toNat = args.length + 3 := by omega
  have hrep : List.replicate (args.length + 3) 0 =
      0 :: 0 :: (List.replicate args.length 0 ++ [0]) := by
    rw [List.replicate_succ, List.replicate_succ, List.replicate_succ']
  have hl := buildLoop_eq args vals 0 [0xfe, (((args.length : Int) - 2) % 256).toNat]
    (List.replicate args.length 0) [0] (((args.length : Int) - 2) % 256).toNat hv rfl
    (by simp)
  simp only [List.cons_append, List.nil_append] at hl
  have hlast : ∀ (a b x : Nat), (a :: b :: (vals ++ [0])).set (args.length + 2) x =
      a :: b :: (vals ++ [x]) := by
    intro a b x
    have e : args.length + 2 = vals.length + 1 + 1 := by omega
    rw [e]
    simp only [List.set_cons_succ]
    rw [List.set_append_right _ _ (le_refl _)]
    simp
  unfold buildFrame
  simp only []
  rw [if_neg (by omega), h5, hrep,
    setIdx_ok _ 0 0xfe 0 rfl (by simp)]
  simp only [List.set_cons_zero]
  rw [setIdx_ok _ 1 _ 1 rfl (by simp)]
  simp only [List.set_cons_succ, List.set_cons_zero]
  rw [hl]
  simp only []
  rw [setIdx_ok _ _ _ (args.length + 2) (by omega) (by simp; omega), hlast]

/-- The frame of a request `(s, c, p)` with a payload of at most 255 bytes: start of frame,
the payload length, the three fields and the XOR of everything after the start of frame. -/
theorem buildFrame_hexArgs (s c : Nat) (p : List Nat) (hs : s < 256) (hc : c < 256)
    (hp : ∀ b ∈ p, b < 256) (hlen : p.length ≤ 255) :
    buildFrame (hexArgs s c p) =
      .ok (0xfe :: p.length :: s :: c :: (p ++ [xorAll (p.length ^^^ s ^^^ c) p])) := by
  have hv : (hexArgs s c p).map sscanHex = (s :: c :: p).map some := by
    apply map_sscanHex_fmt02x
    intro b hb
    simp only [List.mem_cons] at hb
    rcases hb with h | h | h
    · omega
    · omega
    · exact hp b h
  have hL : ((((hexArgs s c p).length : Int) - 2) % 256).toNat = p.length := by
    simp only [hexArgs, List.length_map, List.length_cons]
    omega
  rw [buildFrame_eq _ _ hv, hL]
  simp [xorAll]

/-! ## The claims -/

/-- C1 (round trip): for every subsystem byte `s`, command byte `c` and payload `p` of 0 to
253 bytes, given to `buildFrame` as two-digit hex tokens, `buildFrame` returns a frame, and
`processResponse` on any input that begins with that frame, however the device fragments
its reads, returns `s`, prints the line of `s`, `c` and `p`, and leaves exactly the bytes
that follow the frame unread. -/
theorem round_trip (s c : Nat) (p rest : List Nat) (script : List ReadEvent) (out : String)
    (hs : s < 256) (hc : c < 256) (hp : ∀ b ∈ p, b < 256) (hlen : p.length ≤ 253)
    (hdev : Steady script) :
    ∃ frame w', buildFrame (hexArgs s c p) = .ok frame ∧
      processResponse ⟨frame ++ rest, script, out⟩ = (.ok s, w') ∧
      w'.input = rest ∧ w'.out = out ++ frameLine s c p := by
  obtain ⟨w1, h1, h2, h3, h4⟩ := processResponse_steady
    ⟨(0xfe :: p.length :: s :: c :: (p ++ [xorAll (p.length ^^^ s ^^^ c) p])) ++ rest, script, out⟩
    hdev p.length s c (xorAll (p.length ^^^ s ^^^ c) p) p rest (by simp) rfl
  rw [if_pos rfl] at h4
  exact ⟨_, _, buildFrame_hexArgs s c p hs hc hp (by omega), h4, h1, rfl⟩

theorem round_trip_witness :
    (0x21 < 256 ∧ 0x02 < 256 ∧ (∀ b ∈ [0x01, 0x02], b < 256) ∧ [0x01, 0x02].length ≤ 253 ∧
      Steady [.delivers 1, .delivers 2, .delivers 1]) ∧
    ∃ frame w', buildFrame (hexArgs 0x21 0x02 [0x01, 0x02]) = .ok frame ∧
      processResponse ⟨frame ++ [0xfe, 0x00], [.delivers 1, .delivers 2, .delivers 1], ""⟩ =
        (.ok 0x21, w') ∧
      w'.input = [0xfe, 0x00] ∧ w'.out = "" ++ frameLine 0x21 0x02 [0x01, 0x02] :=
  ⟨⟨by decide, by decide, by decide, by decide, by decide⟩,
    round_trip 0x21 0x02 [0x01, 0x02] [0xfe, 0x00] [.delivers 1, .delivers 2, .delivers 1] ""
      (by decide) (by decide) (by decide) (by decide) (by decide)⟩

/-- C2 as stated fails: the request `21 02 01 02` is framed as `FE 02 21 02 01 02 22`, whose
second byte is 2, the number of payload bytes, and not `2 + len(payload) = 4`. -/
theorem length_field_counterexample :
    buildFrame (hexArgs 0x21 0x02 [0x01, 0x02]) =
      .ok [0xfe, 0x02, 0x21, 0x02, 0x01, 0x02, 0x02 ^^^ 0x21 ^^^ 0x02 ^^^ 0x01 ^^^ 0x02] ∧
    ¬ (∃ frame, buildFrame (hexArgs 0x21 0x02 [0x01, 0x02]) = .ok frame ∧
        frame.getD 1 0 = 2 + [0x01, 0x02].length) := by
  have h : buildFrame (hexArgs 0x21 0x02 [0x01, 0x02]) =
      .ok [0xfe, 0x02, 0x21, 0x02, 0x01, 0x02, 0x02 ^^^ 0x21 ^^^ 0x02 ^^^ 0x01 ^^^ 0x02] := rfl
  refine ⟨h, ?_⟩
  rintro ⟨frame, hf, hl⟩
  rw [h] at hf
  simp only [Except.ok.injEq] at hf
  subst hf
  simp at hl

/-- C2 (amended): for every subsystem id, command id and payload of 0 to 253 bytes, the
second byte of the frame `buildFrame` returns equals `len(payload)`, which is
`len(args) - 2`: the length field counts the payload bytes only. -/
theorem length_field (s c : Nat) (p : List Nat) (hs : s < 256) (hc : c < 256)
    (hp : ∀ b ∈ p, b < 256) (hlen : p.length ≤ 253) :
    ∃ frame, buildFrame (hexArgs s c p) = .ok frame ∧ frame.getD 1 0 = p.length ∧
      frame.getD 1 0 = (hexArgs s c p).length - 2 := by
  refine ⟨_, buildFrame_hexArgs s c p hs hc hp (by omega), ?_, ?_⟩
  · simp
  · simp [hexArgs]

theorem length_field_witness :
    (0x21 < 256 ∧ 0x02 < 256 ∧ (∀ b ∈ [0x01, 0x02], b < 256) ∧ [0x01, 0x02].length ≤ 253) ∧
    ∃ frame, buildFrame (hexArgs 0x21 0x02 [0x01, 0x02]) = .ok frame ∧
      frame.getD 1 0 = [0x01, 0x02].length ∧
      frame.getD 1 0 = (hexArgs 0x21 0x02 [0x01, 0x02]).length - 2 :=
  ⟨⟨by decide, by decide, by decide, by decide⟩,
    length_field 0x21 0x02 [0x01, 0x02] (by decide) (by decide) (by decide) (by decide)⟩

/-- C3 (frame layout and FCS): for every list of `n` tokens that all scan as hex bytes, in
particular for `2 ≤ n ≤ 257`, `buildFrame` returns exactly `n + 3` bytes; the first is the
start-of-frame byte `0xFE`, the bytes at positions `2 .. n+1` are the scanned values in
argument order, and the last byte is the XOR of every byte strictly between the first and
the last (the length byte and every value). -/
theorem frame_layout (args : List String) (vals : List Nat)
    (hv : args.map sscanHex = vals.map some) :
    ∃ frame, buildFrame args = .ok frame ∧ frame.length = args.length + 3 ∧
      frame.getD 0 0 = 0xfe ∧ (frame.drop 2).take args.length = vals ∧
      frame.getD (args.length + 2) 0 = xorAll 0 ((frame.drop 1).take (args.length + 1)) ∧
      frame.getLast? = some (xorAll 0 ((frame.drop 1).take (args.length + 1))) := by
  have hn : vals.length = args.length := by
    have := congrArg List.length hv
    simpa using this.symm
  refine ⟨_, buildFrame_eq args vals hv, ?_, ?_, ?_, ?_, ?_⟩
  · simp [hn]
  · simp
  · simp [← hn]
  · rw [← hn]
    have e : vals.length + 2 = (vals.length + 0) + 1 + 1 := by omega
    have e2 : ∀ (a : Nat) (l : List Nat), (a :: (vals ++ l)).take (vals.length + 1) =
        a :: vals := by
      intro a l; simp
    rw [e]
    simp only [List.getD_cons_succ, List.drop_succ_cons, List.drop_zero, e2]
    rw [List.getD_append_right _ _ _ _ (by omega)]
    simp [xorAll, hn]
  · rw [← hn]
    have e2 : ∀ (a : Nat) (l : List Nat), (a :: (vals ++ l)).take (vals.length + 1) =
        a :: vals := by
      intro a l; simp
    simp only [List.drop_succ_cons, List.drop_zero, e2]
    rw [List.getLast?_cons_cons, ← List.cons_append, List.getLast?_append]
    simp [xorAll, hn]

theorem frame_layout_witness :
    (["21", "02", "01", "02"].map sscanHex = [0x21, 0x02, 0x01, 0x02].map some) ∧
    ∃ frame, buildFrame ["21", "02", "01", "02"] = .ok frame ∧
      frame.length = ["21", "02", "01", "02"].length + 3 ∧
      frame.getD 0 0 = 0xfe ∧
      (frame.drop 2).take ["21", "02", "01", "02"].length = [0x21, 0x02, 0x01, 0x02] ∧
      frame.getD (["21", "02", "01", "02"].length + 2) 0 =
        xorAll 0 ((frame.drop 1).take (["21", "02", "01", "02"].length + 1)) ∧
      frame.getLast? =
        some (xorAll 0 ((frame.drop 1).take (["21", "02", "01", "02"].length + 1))) :=
  ⟨by decide, frame_layout ["21", "02", "01", "02"] [0x21, 0x02, 0x01, 0x02] (by decide)⟩

/-! ## Facts about the XOR checksum -/

theorem xorAll_xor (d : Nat) : ∀ (l : List Nat) (x : Nat),
    xorAll (x ^^^ d) l = xorAll x l ^^^ d := by
  intro l
  induction l with
  | nil => intro x; rfl
  | cons a l ih =>
    intro x
    have e : x ^^^ d ^^^ a = x ^^^ a ^^^ d := by
      rw [Nat.xor_assoc, Nat.xor_comm d a, ← Nat.xor_assoc]
    show xorAll (x ^^^ d ^^^ a) l = xorAll (x ^^^ a) l ^^^ d
    rw [e, ih]

/-- Changing one byte of a list by XOR with `d` changes the XOR of the list by `d`. -/
theorem xorAll_set (d : Nat) : ∀ (l : List Nat) (i x : Nat), i < l.length →
    xorAll x (l.set i (l.getD i 0 ^^^ d)) = xorAll x l ^^^ d := by
  intro l
  induction l with
  | nil => intro i x hi; simp at hi
  | cons a l ih =>
    intro i x hi
    cases i with
    | zero =>
      show xorAll (x ^^^ (a ^^^ d)) l = xorAll (x ^^^ a) l ^^^ d
      rw [← Nat.xor_assoc, xorAll_xor]
    | succ i =>
      show xorAll (x ^^^ a) (l.set i (l.getD i 0 ^^^ d)) = xorAll (x ^^^ a) l ^^^ d
      exact ih i (x ^^^ a) (by simpa using hi)

theorem xor_two_pow_ne (x k : Nat) : x ^^^ 2 ^ k ≠ x := by
  intro h
  have h0 : x ^^^ 2 ^ k = x ^^^ 0 := by rw [h, Nat.xor_zero]
  have := Nat.xor_right_injective h0
  exact absurd this (by positivity)

/-- The decoder on a steady device whose input is a start-of-frame byte, a length byte
`len`, `len + 2` content bytes, one more byte and the rest. -/
theorem processResponse_content (w : World) (hs : Steady w.script) (len fcs : Nat)
    (vals rest : List Nat) (hw : w.input = 0xfe :: len :: (vals ++ fcs :: rest))
    (hv : vals.length = len + 2) :
    ∃ w1, w1.input = rest ∧ w1.out = w.out ∧ Steady w1.script ∧
      processResponse w =
        if xorAll len vals = fcs then
          (.ok (vals.getD 0 0),
            { w1 with out := w.out ++ frameLine (vals.getD 0 0) (vals.getD 1 0) (vals.drop 2) })
        else (.error (.badFCS (xorAll len vals) fcs), w1) := by
  match vals, hv with
  | s :: c :: p, hv =>
    have hp : p.length = len := by simpa using hv
    exact processResponse_steady w hs len s c fcs p rest (by simpa using hw) hp

/-- The decoder on a steady device whose input ends before the payload the length byte
announces is complete: the third `mustRead` dies with the read error. -/
theorem processResponse_short (w : World) (hs : Steady w.script) (len s c : Nat)
    (body : List Nat) (hw : w.input = 0xfe :: len :: s :: c :: body)
    (hlen : body.length < len) :
    ∃ w', processResponse w = (.error (.readFailed len), w') ∧ w'.out = w.out := by
  obtain ⟨wa, ha, hia, hoa, hsa⟩ := mustRead_steady 1 w hs (by rw [hw]; simp)
  rw [hw] at ha hia
  simp only [List.take_succ_cons, List.take_zero, List.drop_succ_cons, List.drop_zero] at ha hia
  obtain ⟨wb, hb, hib, hob, hsb⟩ := mustRead_steady 3 wa hsa (by rw [hia]; simp)
  rw [hia] at hb hib
  simp only [List.take_succ_cons, List.take_zero, List.drop_succ_cons, List.drop_zero] at hb hib
  obtain ⟨wc, hc, -, hoc⟩ := mustRead_short len wb hsb (by rw [hib]; exact hlen)
  refine ⟨wc, ?_, by rw [hoc, hob, hoa]⟩
  unfold processResponse
  rw [ha]
  simp only [List.getD_cons_zero, ne_eq, not_true_eq_false, if_false]
  rw [hb]
  simp only [List.getD_cons_zero, List.getD_cons_succ]
  rw [hc]

theorem take_getD_drop (l : List Nat) (n : Nat) (h : n < l.length) :
    l = l.take n ++ l.getD n 0 :: l.drop (n + 1) := by
  induction l generalizing n with
  | nil => simp at h
  | cons a l ih =>
    cases n with
    | zero => simp
    | succ n =>
      have := ih n (by simpa using h)
      simp only [List.take_succ_cons, List.getD_cons_succ, List.drop_succ_cons, List.cons_append]
      rw [← this]

/-- C4 (checksum validation): on an input that starts with `0xFE`, a 3-byte header, as many
payload bytes as the first header byte says and one fcs byte, `processResponse` succeeds if
and only if the fcs equals the XOR of the three header bytes and all payload bytes; when
they differ it dies with the checksum error that carries the computed XOR as the expected
value and the received fcs as the actual one, and nothing has been printed. -/
theorem checksum_validation (w : World) (len s c fcs : Nat) (p rest : List Nat)
    (hdev : Steady w.script) (hw : w.input = 0xfe :: len :: s :: c :: (p ++ fcs :: rest))
    (hp : p.length = len) :
    ((∃ r, (processResponse w).1 = .ok r) ↔ fcs = xorAll (len ^^^ s ^^^ c) p) ∧
    (fcs ≠ xorAll (len ^^^ s ^^^ c) p →
      (processResponse w).1 = .error (.badFCS (xorAll (len ^^^ s ^^^ c) p) fcs) ∧
      (processResponse w).2.out = w.out) := by
  obtain ⟨w1, -, h2, -, h4⟩ := processResponse_steady w hdev len s c fcs p rest hw hp
  by_cases hx : xorAll (len ^^^ s ^^^ c) p = fcs
  · rw [if_pos hx] at h4
    rw [h4]
    exact ⟨⟨fun _ => hx.symm, fun _ => ⟨s, rfl⟩⟩, fun hne => absurd hx.symm hne⟩
  · rw [if_neg hx] at h4
    rw [h4]
    refine ⟨⟨?_, fun h => absurd h.symm hx⟩, fun _ => ⟨rfl, h2⟩⟩
    rintro ⟨r, hr⟩
    simp at hr

theorem checksum_validation_witness :
    (Steady (World.mk [0xfe, 0x01, 0x21, 0x02, 0x23, 0x00, 0x07] [.delivers 2] "").script ∧
      (World.mk [0xfe, 0x01, 0x21, 0x02, 0x23, 0x00, 0x07] [.delivers 2] "").input =
        0xfe :: 0x01 :: 0x21 :: 0x02 :: ([0x23] ++ 0x00 :: [0x07]) ∧
      [0x23].length = 0x01) ∧
    ((∃ r, (processResponse ⟨[0xfe, 0x01, 0x21, 0x02, 0x23, 0x00, 0x07], [.delivers 2], ""⟩).1
        = .ok r) ↔ 0x00 = xorAll (0x01 ^^^ 0x21 ^^^ 0x02) [0x23]) ∧
    (0x00 ≠ xorAll (0x01 ^^^ 0x21 ^^^ 0x02) [0x23] →
      (processResponse ⟨[0xfe, 0x01, 0x21, 0x02, 0x23, 0x00, 0x07], [.delivers 2], ""⟩).1 =
        .error (.badFCS (xorAll (0x01 ^^^ 0x21 ^^^ 0x02) [0x23]) 0x00) ∧
      (processResponse ⟨[0xfe, 0x01, 0x21, 0x02, 0x23, 0x00, 0x07], [.delivers 2], ""⟩).2.out =
        (World.mk [0xfe, 0x01, 0x21, 0x02, 0x23, 0x00, 0x07] [.delivers 2] "").out) :=
  ⟨⟨by decide, rfl, rfl⟩,
    checksum_validation ⟨[0xfe, 0x01, 0x21, 0x02, 0x23, 0x00, 0x07], [.delivers 2], ""⟩
      0x01 0x21 0x02 0x00 [0x23] [0x07] (by decide) rfl rfl⟩

/-- C5 (checksum sensitivity, content bytes): for every frame `buildFrame` returns for a
request of bytes with at most 253 payload bytes, every position `i + 2` of its subsystem
byte, command id or payload bytes and every bit `k < 8`, `processResponse` on the frame
with that one bit flipped does not succeed: it dies with the checksum error, the expected
value being the received fcs with bit `k` flipped, and prints nothing. -/
theorem content_bit_flip (s c : Nat) (p rest : List Nat) (script : List ReadEvent)
    (out : String) (i k : Nat) (hs : s < 256) (hc : c < 256) (hp : ∀ b ∈ p, b < 256)
    (hlen : p.length ≤ 253) (hdev : Steady script) (hi : i < p.length + 2) (hk : k < 8) :
    ∃ frame fcs w', buildFrame (hexArgs s c p) = .ok frame ∧ frame.getLast? = some fcs ∧
      frame.getD (i + 2) 0 ^^^ 2 ^ k < 256 ∧
      processResponse ⟨frame.set (i + 2) (frame.getD (i + 2) 0 ^^^ 2 ^ k) ++ rest, script, out⟩
        = (.error (.badFCS (fcs ^^^ 2 ^ k) fcs), w') ∧
      fcs ^^^ 2 ^ k ≠ fcs ∧ w'.out = out := by
  have hb := buildFrame_hexArgs s c p hs hc hp (by omega)
  have hfr : (0xfe :: p.length :: s :: c :: (p ++ [xorAll (p.length ^^^ s ^^^ c) p])) =
      0xfe :: p.length :: ((s :: c :: p) ++ [xorAll p.length (s :: c :: p)]) := by
    simp [xorAll]
  rw [hfr] at hb
  have hil : i < (s :: c :: p).length := by simpa using hi
  have hset : (0xfe :: p.length :: ((s :: c :: p) ++ [xorAll p.length (s :: c :: p)])).set (i + 2)
      ((0xfe :: p.length :: ((s :: c :: p) ++ [xorAll p.length (s :: c :: p)])).getD (i + 2) 0
        ^^^ 2 ^ k) =
      0xfe :: p.length :: ((s :: c :: p).set i ((s :: c :: p).getD i 0 ^^^ 2 ^ k) ++
        [xorAll p.length (s :: c :: p)]) := by
    simp only [List.set_cons_succ, List.getD_cons_succ]
    rw [List.set_append_left _ _ hil, List.getD_append _ _ _ _ hil]
  obtain ⟨w1, -, h2, -, h4⟩ := processResponse_content
    ⟨(0xfe :: p.length :: ((s :: c :: p).set i ((s :: c :: p).getD i 0 ^^^ 2 ^ k) ++
        [xorAll p.length (s :: c :: p)])) ++ rest, script, out⟩ hdev p.length
    (xorAll p.length (s :: c :: p)) ((s :: c :: p).set i ((s :: c :: p).getD i 0 ^^^ 2 ^ k)) rest
    (by simp) (by simp)
  rw [xorAll_set _ _ _ _ hil, if_neg (xor_two_pow_ne _ _)] at h4
  refine ⟨_, xorAll p.length (s :: c :: p), w1, hb, ?_, ?_, ?_, xor_two_pow_ne _ _, h2⟩
  · rw [List.getLast?_cons_cons, ← List.cons_append, List.getLast?_append]
    simp
  · simp only [List.getD_cons_succ]
    rw [List.getD_append _ _ _ _ hil]
    have hmem : (s :: c :: p).getD i 0 ∈ s :: c :: p := by
      rw [List.getD_eq_getElem _ _ hil]
      exact List.getElem_mem _
    have hbyte : (s :: c :: p).getD i 0 < 2 ^ 8 := by
      simp only [List.mem_cons] at hmem
      rcases hmem with h | h | h
      · omega
      · omega
      · exact hp _ h
    exact Nat.xor_lt_two_pow hbyte (Nat.pow_lt_pow_right (by decide) hk)
  · rw [hset]
    exact h4

theorem content_bit_flip_witness :
    (0x21 < 256 ∧ 0x02 < 256 ∧ (∀ b ∈ [0x01, 0x02], b < 256) ∧ [0x01, 0x02].length ≤ 253 ∧
      Steady [.delivers 1] ∧ 3 < [0x01, 0x02].length + 2 ∧ 7 < 8) ∧
    ∃ frame fcs w', buildFrame (hexArgs 0x21 0x02 [0x01, 0x02]) = .ok frame ∧
      frame.getLast? = some fcs ∧ frame.getD (3 + 2) 0 ^^^ 2 ^ 7 < 256 ∧
      processResponse ⟨frame.set (3 + 2) (frame.getD (3 + 2) 0 ^^^ 2 ^ 7) ++ [0x55],
        [.delivers 1], "x"⟩ = (.error (.badFCS (fcs ^^^ 2 ^ 7) fcs), w') ∧
      fcs ^^^ 2 ^ 7 ≠ fcs ∧ w'.out = "x" :=
  ⟨⟨by decide, by decide, by decide, by decide, by decide, by decide, by decide⟩,
    content_bit_flip 0x21 0x02 [0x01, 0x02] [0x55] [.delivers 1] "x" 3 7
      (by decide) (by decide) (by decide) (by decide) (by decide) (by decide) (by decide)⟩

/-- C6 as stated fails: the request `21 02 23` is framed as `FE 01 21 02 23 01`; with bit 0
of the length byte flipped the bytes `FE 00 21 02 23` are accepted as a frame without
payload (`23 = 00 ^ 21 ^ 02`) and the line `21 02` is printed, with no checksum error. -/
theorem length_bit_flip_counterexample :
    buildFrame (hexArgs 0x21 0x02 [0x23]) = .ok [0xfe, 0x01, 0x21, 0x02, 0x23, 0x01] ∧
    [0xfe, 0x01, 0x21, 0x02, 0x23, 0x01].set 1 (0x01 ^^^ 2 ^ 0) =
      [0xfe, 0x00, 0x21, 0x02, 0x23, 0x01] ∧
    (processResponse ⟨[0xfe, 0x00, 0x21, 0x02, 0x23, 0x01], [], ""⟩).1 = .ok 0x21 ∧
    (processResponse ⟨[0xfe, 0x00, 0x21, 0x02, 0x23, 0x01], [], ""⟩).2.out = "21 02\n" ∧
    (processResponse ⟨[0xfe, 0x00, 0x21, 0x02, 0x23, 0x01], [], ""⟩).2.input = [0x01] := by
  obtain ⟨w1, h1, -, -, h4⟩ := processResponse_steady
    ⟨[0xfe, 0x00, 0x21, 0x02, 0x23, 0x01], [], ""⟩ (by decide) 0x00 0x21 0x02 0x23 [] [0x01]
    rfl rfl
  rw [if_pos (by decide)] at h4
  rw [h4]
  exact ⟨rfl, rfl, rfl, rfl, h1⟩

/-- C6 (amended): for every frame `buildFrame` returns for a request of bytes with at most
253 payload bytes and every bit `k < 8` of its length byte `L`, `processResponse` on the
frame with that bit flipped takes `L' = L xor 2^k` bytes after the header as the payload,
never `L`, and the byte after them as the fcs. When the input holds these `L' + 1` bytes it
dies with the checksum error exactly when that byte differs from the XOR of `L'`, the
subsystem byte, the command id and those `L'` bytes, and nothing is printed; otherwise it
accepts and prints a frame whose payload has `L'` bytes. -/
theorem length_bit_flip (s c : Nat) (p rest : List Nat) (script : List ReadEvent)
    (out : String) (k : Nat) (hs : s < 256) (hc : c < 256) (hp : ∀ b ∈ p, b < 256)
    (hlen : p.length ≤ 253) (hdev : Steady script) (hk : k < 8)
    (hroom : (p.length ^^^ 2 ^ k) + 1 ≤ p.length + 1 + rest.length) :
    ∃ frame, buildFrame (hexArgs s c p) = .ok frame ∧
      frame.getD 1 0 = p.length ∧ p.length ^^^ 2 ^ k ≠ p.length ∧ p.length ^^^ 2 ^ k < 256 ∧
      ∀ p' f', p' = (frame.drop 4 ++ rest).take (p.length ^^^ 2 ^ k) →
        f' = (frame.drop 4 ++ rest).getD (p.length ^^^ 2 ^ k) 0 →
        p'.length = p.length ^^^ 2 ^ k ∧
        (f' ≠ xorAll ((p.length ^^^ 2 ^ k) ^^^ s ^^^ c) p' →
          (processResponse ⟨frame.set 1 (p.length ^^^ 2 ^ k) ++ rest, script, out⟩).1 =
            .error (.badFCS (xorAll ((p.length ^^^ 2 ^ k) ^^^ s ^^^ c) p') f') ∧
          (processResponse ⟨frame.set 1 (p.length ^^^ 2 ^ k) ++ rest, script, out⟩).2.out =
            out) ∧
        (f' = xorAll ((p.length ^^^ 2 ^ k) ^^^ s ^^^ c) p' →
          (processResponse ⟨frame.set 1 (p.length ^^^ 2 ^ k) ++ rest, script, out⟩).1 =
            .ok s ∧
          (processResponse ⟨frame.set 1 (p.length ^^^ 2 ^ k) ++ rest, script, out⟩).2.out =
            out ++ frameLine s c p') := by
  have hb := buildFrame_hexArgs s c p hs hc hp (by omega)
  refine ⟨_, hb, by simp, xor_two_pow_ne _ _,
    Nat.xor_lt_two_pow (n := 8) (by omega) (Nat.pow_lt_pow_right (by decide) hk), ?_⟩
  intro p' f' hp' hf'
  simp only [List.drop_succ_cons, List.drop_zero] at hp' hf'
  have hbl : (p ++ [xorAll (p.length ^^^ s ^^^ c) p] ++ rest).length =
      p.length + 1 + rest.length := by
    simp only [List.length_append, List.length_cons, List.length_nil]
  have hsplit := take_getD_drop (p ++ [xorAll (p.length ^^^ s ^^^ c) p] ++ rest)
    (p.length ^^^ 2 ^ k) (by rw [hbl]; omega)
  rw [← hp', ← hf'] at hsplit
  have htl : p'.length = p.length ^^^ 2 ^ k := by
    rw [hp', List.length_take, hbl]
    omega
  obtain ⟨w1, -, h2, -, h4⟩ := processResponse_steady
    ⟨0xfe :: (p.length ^^^ 2 ^ k) :: s :: c ::
      (p ++ [xorAll (p.length ^^^ s ^^^ c) p] ++ rest), script, out⟩ hdev
    (p.length ^^^ 2 ^ k) s c f' p'
    ((p ++ [xorAll (p.length ^^^ s ^^^ c) p] ++ rest).drop ((p.length ^^^ 2 ^ k) + 1))
    (by
      show 0xfe :: (p.length ^^^ 2 ^ k) :: s :: c ::
        (p ++ [xorAll (p.length ^^^ s ^^^ c) p] ++ rest) = _
      rw [← hsplit]) htl
  have hin : (0xfe :: p.length :: s :: c :: (p ++ [xorAll (p.length ^^^ s ^^^ c) p])).set 1
      (p.length ^^^ 2 ^ k) ++ rest =
      0xfe :: (p.length ^^^ 2 ^ k) :: s :: c ::
        (p ++ [xorAll (p.length ^^^ s ^^^ c) p] ++ rest) := by
    simp
  rw [hin, h4]
  refine ⟨htl, ?_, ?_⟩
  · intro hne
    rw [if_neg (fun h => hne h.symm)]
    exact ⟨rfl, h2⟩
  · intro heq
    rw [if_pos heq.symm]
    exact ⟨rfl, rfl⟩

theorem length_bit_flip_witness :
    (0x21 < 256 ∧ 0x02 < 256 ∧ (∀ b ∈ [0x23], b < 256) ∧ [0x23].length ≤ 253 ∧
      Steady [.delivers 1] ∧ 0 < 8 ∧
      ([0x23].length ^^^ 2 ^ 0) + 1 ≤ [0x23].length + 1 + [0x44].length) ∧
    ∃ frame, buildFrame (hexArgs 0x21 0x02 [0x23]) = .ok frame ∧
      frame.getD 1 0 = [0x23].length ∧ [0x23].length ^^^ 2 ^ 0 ≠ [0x23].length ∧
      [0x23].length ^^^ 2 ^ 0 < 256 ∧
      ∀ p' f', p' = (frame.drop 4 ++ [0x44]).take ([0x23].length ^^^ 2 ^ 0) →
        f' = (frame.drop 4 ++ [0x44]).getD ([0x23].length ^^^ 2 ^ 0) 0 →
        p'.length = [0x23].length ^^^ 2 ^ 0 ∧
        (f' ≠ xorAll (([0x23].length ^^^ 2 ^ 0) ^^^ 0x21 ^^^ 0x02) p' →
          (processResponse ⟨frame.set 1 ([0x23].length ^^^ 2 ^ 0) ++ [0x44],
            [.delivers 1], ""⟩).1 =
            .error (.badFCS (xorAll (([0x23].length ^^^ 2 ^ 0) ^^^ 0x21 ^^^ 0x02) p') f') ∧
          (processResponse ⟨frame.set 1 ([0x23].length ^^^ 2 ^ 0) ++ [0x44],
            [.delivers 1], ""⟩).2.out = "") ∧
        (f' = xorAll (([0x23].length ^^^ 2 ^ 0) ^^^ 0x21 ^^^ 0x02) p' →
          (processResponse ⟨frame.set 1 ([0x23].length ^^^ 2 ^ 0) ++ [0x44],
            [.delivers 1], ""⟩).1 = .ok 0x21 ∧
          (processResponse ⟨frame.set 1 ([0x23].length ^^^ 2 ^ 0) ++ [0x44],
            [.delivers 1], ""⟩).2.out = "" ++ frameLine 0x21 0x02 p') :=
  ⟨⟨by decide, by decide, by decide, by decide, by decide, by decide, by decide⟩,
    length_bit_flip 0x21 0x02 [0x23] [0x44] [.delivers 1] "" 0
      (by decide) (by decide) (by decide) (by decide) (by decide) (by decide) (by decide)⟩

/-- C7 as stated fails: on exactly the seven bytes `FE 04 21 02 01 02 24` (with
`24 = 04 ^ 21 ^ 02 ^ 01 ^ 02`) `processResponse` asks for four payload bytes, finds three
and dies with the read error, printing nothing; with two more bytes `00 00` on the input
it takes `01 02 24 00` as the payload and prints `21 02 01 02 24 00`. -/
theorem decode_example_counterexample :
    (0x04 ^^^ 0x21 ^^^ 0x02 ^^^ 0x01 ^^^ 0x02 = 0x24) ∧
    (processResponse ⟨[0xfe, 0x04, 0x21, 0x02, 0x01, 0x02, 0x24], [], ""⟩).1 =
      .error (.readFailed 4) ∧
    (processResponse ⟨[0xfe, 0x04, 0x21, 0x02, 0x01, 0x02, 0x24], [], ""⟩).2.out = "" ∧
    (processResponse ⟨[0xfe, 0x04, 0x21, 0x02, 0x01, 0x02, 0x24, 0x00, 0x00], [], ""⟩).1 =
      .ok 0x21 ∧
    (processResponse ⟨[0xfe, 0x04, 0x21, 0x02, 0x01, 0x02, 0x24, 0x00, 0x00], [], ""⟩).2.out =
      "21 02 01 02 24 00\n" := by
  obtain ⟨w1, h1, h2⟩ := processResponse_short
    ⟨[0xfe, 0x04, 0x21, 0x02, 0x01, 0x02, 0x24], [], ""⟩ (by decide) 0x04 0x21 0x02
    [0x01, 0x02, 0x24] rfl (by decide)
  obtain ⟨w2, -, -, -, h4⟩ := processResponse_steady
    ⟨[0xfe, 0x04, 0x21, 0x02, 0x01, 0x02, 0x24, 0x00, 0x00], [], ""⟩ (by decide)
    0x04 0x21 0x02 0x00 [0x01, 0x02, 0x24, 0x00] [] rfl rfl
  rw [if_pos (by decide)] at h4
  rw [h1, h4]
  exact ⟨by decide, rfl, h2, rfl, rfl⟩

/-- C7 (amended): given a frame whose length byte is `L`, `processResponse` reads `L`
payload bytes after the 3-byte header and then the fcs: on an input that holds `0xFE`, the
header `L s c`, `L` payload bytes `p`, the XOR of header and payload, and then anything,
it returns `s`, prints the line of `s`, `c` and `p` and leaves what follows unread. -/
theorem decode_payload_length (w : World) (s c : Nat) (p rest : List Nat)
    (hdev : Steady w.script)
    (hw : w.input = 0xfe :: p.length :: s :: c ::
      (p ++ xorAll (p.length ^^^ s ^^^ c) p :: rest)) :
    (processResponse w).1 = .ok s ∧ (processResponse w).2.input = rest ∧
    (processResponse w).2.out = w.out ++ frameLine s c p := by
  obtain ⟨w1, h1, -, -, h4⟩ := processResponse_steady w hdev p.length s c
    (xorAll (p.length ^^^ s ^^^ c) p) p rest hw rfl
  rw [if_pos rfl] at h4
  rw [h4]
  exact ⟨rfl, h1, rfl⟩

theorem decode_payload_length_witness :
    (Steady (World.mk [0xfe, 0x02, 0x21, 0x02, 0x01, 0x02, 0x22] [] "").script ∧
      (World.mk [0xfe, 0x02, 0x21, 0x02, 0x01, 0x02, 0x22] [] "").input =
        0xfe :: [0x01, 0x02].length :: 0x21 :: 0x02 ::
          ([0x01, 0x02] ++ xorAll ([0x01, 0x02].length ^^^ 0x21 ^^^ 0x02) [0x01, 0x02] :: [])) ∧
    (0x02 ^^^ 0x21 ^^^ 0x02 ^^^ 0x01 ^^^ 0x02 = 0x22 ∧
      frameLine 0x21 0x02 [0x01, 0x02] = "21 02 01 02\n") ∧
    (processResponse ⟨[0xfe, 0x02, 0x21, 0x02, 0x01, 0x02, 0x22], [], ""⟩).1 = .ok 0x21 ∧
    (processResponse ⟨[0xfe, 0x02, 0x21, 0x02, 0x01, 0x02, 0x22], [], ""⟩).2.input = [] ∧
    (processResponse ⟨[0xfe, 0x02, 0x21, 0x02, 0x01, 0x02, 0x22], [], ""⟩).2.out =
      (World.mk [0xfe, 0x02, 0x21, 0x02, 0x01, 0x02, 0x22] [] "").out ++
        frameLine 0x21 0x02 [0x01, 0x02] :=
  ⟨⟨by decide, by decide⟩, ⟨by decide, by decide⟩,
    decode_payload_length ⟨[0xfe, 0x02, 0x21, 0x02, 0x01, 0x02, 0x22], [], ""⟩ 0x21 0x02
      [0x01, 0x02] [] (by decide) (by decide)⟩

/-- C8 (desync detection): on an input whose first byte `b` is not `0xFE`,
`processResponse` dies with the unexpected-SOF error that reports `b`, having consumed
exactly that one byte and printed nothing. -/
theorem desync_detection (w : World) (b : Nat) (rest : List Nat) (hdev : Steady w.script)
    (hw : w.input = b :: rest) (hb : b ≠ 0xfe) :
    (processResponse w).1 = .error (.unexpectedSOF b) ∧
    (processResponse w).2.input = rest ∧ (processResponse w).2.out = w.out := by
  obtain ⟨wa, ha, hia, hoa, -⟩ := mustRead_steady 1 w hdev (by rw [hw]; simp)
  rw [hw] at ha hia
  simp only [List.take_succ_cons, List.take_zero, List.drop_succ_cons, List.drop_zero] at ha hia
  unfold processResponse
  rw [ha]
  simp only [List.getD_cons_zero, ne_eq, hb, not_false_eq_true, if_true]
  exact ⟨trivial, hia, hoa⟩

theorem desync_detection_witness :
    (Steady (World.mk [0x00, 0xfe, 0x00, 0x21, 0x02, 0x23] [.delivers 3] "").script ∧
      (World.mk [0x00, 0xfe, 0x00, 0x21, 0x02, 0x23] [.delivers 3] "").input =
        0x00 :: [0xfe, 0x00, 0x21, 0x02, 0x23] ∧ 0x00 ≠ 0xfe) ∧
    (processResponse ⟨[0x00, 0xfe, 0x00, 0x21, 0x02, 0x23], [.delivers 3], ""⟩).1 =
      .error (.unexpectedSOF 0x00) ∧
    (processResponse ⟨[0x00, 0xfe, 0x00, 0x21, 0x02, 0x23], [.delivers 3], ""⟩).2.input =
      [0xfe, 0x00, 0x21, 0x02, 0x23] ∧
    (processResponse ⟨[0x00, 0xfe, 0x00, 0x21, 0x02, 0x23], [.delivers 3], ""⟩).2.out =
      (World.mk [0x00, 0xfe, 0x00, 0x21, 0x02, 0x23] [.delivers 3] "").out :=
  ⟨⟨by decide, rfl, by decide⟩,
    desync_detection ⟨[0x00, 0xfe, 0x00, 0x21, 0x02, 0x23], [.delivers 3], ""⟩ 0x00
      [0xfe, 0x00, 0x21, 0x02, 0x23] (by decide) rfl (by decide)⟩

/-! ## Facts about the response loop -/

theorem Frame.wire_eq (f : Frame) (hf : f.Valid) :
    f.wire = 0xfe :: f.payload.length :: f.sub :: f.cmd ::
      (f.payload ++ [xorAll (f.payload.length ^^^ f.sub ^^^ f.cmd) f.payload]) := by
  obtain ⟨hs, hc, hp, hl⟩ := hf
  unfold Frame.wire encode
  rw [buildFrame_hexArgs f.sub f.cmd f.payload hs hc hp (by omega)]

/-- The decoder on a steady device whose input starts with a valid frame. -/
theorem processResponse_wire (w : World) (f : Frame) (rest : List Nat) (hf : f.Valid)
    (hs : Steady w.script) (hw : w.input = f.wire ++ rest) :
    ∃ w', processResponse w = (.ok f.sub, w') ∧ w'.input = rest ∧
      w'.out = w.out ++ f.line ∧ Steady w'.script := by
  rw [Frame.wire_eq f hf] at hw
  obtain ⟨w1, h1, -, h3, h4⟩ := processResponse_steady w hs f.payload.length f.sub f.cmd
    (xorAll (f.payload.length ^^^ f.sub ^^^ f.cmd) f.payload) f.payload rest
    (by simpa using hw) rfl
  rw [if_pos rfl] at h4
  exact ⟨_, h4, h1, rfl, h3⟩

theorem matchLoop_frames (r : Nat) : ∀ (fs : List Frame) (last : Frame) (rest : List Nat)
    (w : World), (∀ f ∈ fs, f.Valid ∧ f.sub ≠ (r ||| 0x20) ∧ f.sub ≠ r) → last.Valid →
    (last.sub = (r ||| 0x20) ∨ last.sub = r) → Steady w.script →
    w.input = (fs.map Frame.wire).flatten ++ last.wire ++ rest →
    ∃ w', matchLoop r w = (.ok (), w') ∧ w'.input = rest ∧
      w'.out = w.out ++ printed fs ++ last.line := by
  intro fs
  induction fs with
  | nil =>
    intro last rest w _ hl hm hs hw
    obtain ⟨w1, h1, h2, h3, -⟩ := processResponse_wire w last rest hl hs (by simpa using hw)
    refine ⟨w1, ?_, h2, by rw [h3]; simp [printed]⟩
    rw [matchLoop]
    split
    · rename_i heq; rw [h1] at heq; simp at heq
    · rename_i x w2 heq
      rw [h1] at heq
      simp only [Prod.mk.injEq, Except.ok.injEq] at heq
      obtain ⟨hx, hw2⟩ := heq
      subst hx; subst hw2
      rw [if_pos hm]
  | cons f fs ih =>
    intro last rest w hfs hl hm hs hw
    obtain ⟨hfv, hf1, hf2⟩ := hfs f (List.mem_cons_self _ _)
    obtain ⟨w1, h1, h2, h3, h4⟩ := processResponse_wire w f
      ((fs.map Frame.wire).flatten ++ last.wire ++ rest) hfv hs
      (by rw [hw]; simp [List.append_assoc])
    obtain ⟨w', g1, g2, g3⟩ := ih last rest w1
      (fun g hg => hfs g (List.mem_cons_of_mem _ hg)) hl hm h4 h2
    refine ⟨w', ?_, g2, ?_⟩
    · rw [matchLoop]
      split
      · rename_i heq; rw [h1] at heq; simp at heq
      · rename_i x w2 heq
        rw [h1] at heq
        simp only [Prod.mk.injEq, Except.ok.injEq] at heq
        obtain ⟨hx, hw2⟩ := heq
        subst hx; subst hw2
        rw [if_neg (by rintro (h | h); exact hf1 h; exact hf2 h)]
        exact g1
    · rw [g3, h3]
      simp only [printed, String.append_assoc]

/-- C9 (response matching loop): for every request subsystem byte `r` and every input that
is the concatenation of valid frames `f1..fk` followed by arbitrary bytes, where `fk` is
the first whose subsystem byte is `r` or `r | 0x20`, the loop of `main` returns, having
printed the lines of `f1..fk` in order (the non-matching ones included) and nothing else,
and having consumed no byte after `fk`. -/
theorem response_matching (r : Nat) (fs : List Frame) (last : Frame) (rest : List Nat)
    (script : List ReadEvent) (out : String)
    (hfs : ∀ f ∈ fs, f.Valid ∧ f.sub ≠ (r ||| 0x20) ∧ f.sub ≠ r) (hlast : last.Valid)
    (hmatch : last.sub = (r ||| 0x20) ∨ last.sub = r) (hdev : Steady script) :
    ∃ w', matchLoop r ⟨(fs.map Frame.wire).flatten ++ last.wire ++ rest, script, out⟩ =
        (.ok (), w') ∧
      w'.input = rest ∧ w'.out = out ++ printed fs ++ last.line :=
  matchLoop_frames r fs last rest ⟨_, script, out⟩ hfs hlast hmatch hdev rfl

theorem response_matching_witness :
    ((∀ f ∈ [Frame.mk 0x41 0x80 [0x02], Frame.mk 0x41 0x80 []],
        f.Valid ∧ f.sub ≠ (0x21 ||| 0x20) ∧ f.sub ≠ 0x21) ∧
      (Frame.mk (0x21 ||| 0x20) 0x02 [0x01]).Valid ∧
      ((Frame.mk (0x21 ||| 0x20) 0x02 [0x01]).sub = (0x21 ||| 0x20) ∨
        (Frame.mk (0x21 ||| 0x20) 0x02 [0x01]).sub = 0x21) ∧
      Steady [.delivers 1]) ∧
    (printed [Frame.mk 0x41 0x80 [0x02], Frame.mk 0x41 0x80 []] ++
      (Frame.mk (0x21 ||| 0x20) 0x02 [0x01]).line = "41 80 02\n41 80\n21 02 01\n") ∧
    ∃ w', matchLoop 0x21 ⟨([Frame.mk 0x41 0x80 [0x02], Frame.mk 0x41 0x80 []].map
          Frame.wire).flatten ++ (Frame.mk (0x21 ||| 0x20) 0x02 [0x01]).wire ++ [0xfe, 0x00],
        [.delivers 1], ""⟩ = (.ok (), w') ∧
      w'.input = [0xfe, 0x00] ∧
      w'.out = "" ++ printed [Frame.mk 0x41 0x80 [0x02], Frame.mk 0x41 0x80 []] ++
        (Frame.mk (0x21 ||| 0x20) 0x02 [0x01]).line :=
  ⟨⟨by decide, by decide, by decide, by decide⟩, by decide,
    response_matching 0x21 [Frame.mk 0x41 0x80 [0x02], Frame.mk 0x41 0x80 []]
      (Frame.mk (0x21 ||| 0x20) 0x02 [0x01]) [0xfe, 0x00] [.delivers 1] ""
      (by decide) (by decide) (by decide) (by decide)⟩

/-! ## Facts about read failures -/

theorem deliver_bytes_pos {k room : Nat} {w w' : World} {chunk : List Nat}
    (h : deliver k room w = (.bytes chunk, w')) : 0 < k := by
  unfold deliver at h
  split at h
  · simp at h
  · rename_i hne
    rcases Nat.eq_zero_or_pos k with h0 | h0
    · exfalso
      apply hne
      rw [h0]
      simp
    · exact h0

/-- A round of the read loop that yields bytes has used no event, the script being used up,
or one event that hands over at least one byte. -/
theorem pollRead_bytes_script {room : Nat} {w w' : World} {chunk : List Nat}
    (h : pollRead room w = (.bytes chunk, w')) :
    ∃ used, w.script = used ++ w'.script ∧ Steady used := by
  unfold pollRead at h
  split at h
  · rename_i hnil
    refine ⟨[], ?_, by decide⟩
    rw [(deliver_bytes h).2.2.2.2.2, hnil]
    rfl
  · simp at h
  · simp at h
  · rename_i k rest hcons
    refine ⟨[.delivers k], ?_, ?_⟩
    · rw [(deliver_bytes h).2.2.2.2.2, hcons]
      rfl
    · intro e he
      simp only [List.mem_singleton] at he
      subst he
      simpa [ReadEvent.isData] using deliver_bytes_pos h

/-- A `mustRead` loop that returns has met no failing poll and no failing read: every event
it has used handed over at least one byte. -/
theorem mustReadLoop_used (n : Nat) : ∀ (m : Nat) (got : List Nat) (w w' : World)
    (buf : List Nat), n - got.length = m → mustReadLoop n got w = (.ok buf, w') →
    ∃ used, w.script = used ++ w'.script ∧ Steady used := by
  intro m
  induction m using Nat.strong_induction_on with
  | _ m ih =>
    intro got w w' buf hm h
    rw [mustReadLoop] at h
    split at h
    · rename_i hlt
      split at h
      · simp at h
      · simp at h
      · rename_i chunk w1 hp
        obtain ⟨hne, -, -, -, -⟩ := pollRead_bytes hp
        have hpos := List.length_pos.mpr hne
        have hlen : (got ++ chunk).length = got.length + chunk.length := List.length_append _ _
        obtain ⟨u1, hu1, hs1⟩ := pollRead_bytes_script hp
        obtain ⟨u2, hu2, hs2⟩ :=
          ih (n - (got ++ chunk).length) (by rw [hlen]; omega) (got ++ chunk) w1 w' buf rfl h
        refine ⟨u1 ++ u2, by rw [hu1, hu2, List.append_assoc], ?_⟩
        intro e he
        rcases List.mem_append.mp he with h1 | h1
        · exact hs1 e h1
        · exact hs2 e h1
    · simp only [Prod.mk.injEq, Except.ok.injEq] at h
      exact ⟨[], by rw [← h.2]; rfl, by decide⟩

theorem mustReadLoop_readFails (n : Nat) (got : List Nat) (w : World) (rest : List ReadEvent)
    (hlt : got.length < n) (hscript : w.script = .readFails :: rest) :
    mustReadLoop n got w = (.error (.readFailed n), { w with script := rest }) := by
  have hp : pollRead (n - got.length) w = (.readError, { w with script := rest }) := by
    unfold pollRead
    rw [hscript]
  rw [mustReadLoop, if_pos hlt]
  split
  · rename_i heq; rw [hp] at heq; simp at heq
  · rename_i w1 heq
    rw [hp] at heq
    simp only [Prod.mk.injEq, true_and] at heq
    rw [← heq]
  · rename_i heq; rw [hp] at heq; simp at heq

theorem mustReadLoop_pollFails (n : Nat) (got : List Nat) (w : World) (rest : List ReadEvent)
    (hlt : got.length < n) (hscript : w.script = .pollFails :: rest) :
    mustReadLoop n got w = (.error .pollFailed, { w with script := rest }) := by
  have hp : pollRead (n - got.length) w = (.pollError, { w with script := rest }) := by
    unfold pollRead
    rw [hscript]
  rw [mustReadLoop, if_pos hlt]
  split
  · rename_i w1 heq
    rw [hp] at heq
    simp only [Prod.mk.injEq, true_and] at heq
    rw [← heq]
  · rename_i heq; rw [hp] at heq; simp at heq
  · rename_i heq; rw [hp] at heq; simp at heq

/-- C10 (exact read under fragmentation): for every `n`, on a device whose read calls each
hand over at least one byte and at most the bytes still missing, and whose input holds `n`
bytes, `mustRead` on a buffer of `n` bytes returns `n` with the buffer equal to the first
`n` bytes of the input in order and has consumed exactly these. A failing read or poll is
not retried: a call that returns has used only events that handed over bytes, and a read
or poll that fails at the first round ends the call at once with the fatal error, no
further event being used and no byte consumed. -/
theorem exact_read (n : Nat) (w : World) :
    (Steady w.script → n ≤ w.input.length →
      ∃ w', mustRead n w = (.ok (n, w.input.take n), w') ∧ w'.input = w.input.drop n ∧
        w'.out = w.out) ∧
    (∀ r w', mustRead n w = (.ok r, w') →
      r = (n, w.input.take n) ∧ w'.input = w.input.drop n ∧
      ∃ used, w.script = used ++ w'.script ∧ Steady used) ∧
    (0 < n → ∀ rest, w.script = .readFails :: rest →
      mustRead n w = (.error (.readFailed n), { w with script := rest })) ∧
    (0 < n → ∀ rest, w.script = .pollFails :: rest →
      mustRead n w = (.error .pollFailed, { w with script := rest })) := by
  refine ⟨?_, ?_, ?_, ?_⟩
  · intro hs hle
    obtain ⟨w', h1, h2, h3, -⟩ := mustRead_steady n w hs hle
    exact ⟨w', h1, h2, h3⟩
  · intro r w' h
    obtain ⟨h1, h2, -, -⟩ := mustRead_ok h
    refine ⟨h1, h2, ?_⟩
    unfold mustRead at h
    split at h
    · simp at h
    · rename_i buf w1 heq
      simp only [Prod.mk.injEq, Except.ok.injEq] at h
      rw [← h.2]
      exact mustReadLoop_used n _ [] w w1 buf rfl heq
  · intro hn rest hscript
    unfold mustRead
    rw [mustReadLoop_readFails n [] w rest (by simpa using hn) hscript]
  · intro hn rest hscript
    unfold mustRead
    rw [mustReadLoop_pollFails n [] w rest (by simpa using hn) hscript]

theorem exact_read_witness :
    (Steady [ReadEvent.delivers 1, .delivers 1, .delivers 1] ∧
      3 ≤ [0x0a, 0x0b, 0x0c, 0x0d].length) ∧
    ∃ w', mustRead 3 ⟨[0x0a, 0x0b, 0x0c, 0x0d], [.delivers 1, .delivers 1, .delivers 1], ""⟩ =
        (.ok (3, [0x0a, 0x0b, 0x0c]), w') ∧
      w'.input = [0x0d] ∧ w'.out = "" :=
  ⟨⟨by decide, by decide⟩,
    (exact_read 3 ⟨[0x0a, 0x0b, 0x0c, 0x0d], [.delivers 1, .delivers 1, .delivers 1], ""⟩).1
      (by decide) (by decide)⟩


/-! ## Facts about accepted frames -/

theorem cons_of_one_le (l : List Nat) (h : 1 ≤ l.length) :
    ∃ a t, l = a :: t := by
  cases l with
  | nil => simp at h
  | cons a t => exact ⟨a, t, rfl⟩

/-- Whatever the device does, a call of `processResponse` that returns has read a
start-of-frame byte, a header `len x c`, `len` payload bytes `p` and their XOR, in this
order and nothing else, has returned `x` and has printed the line of `x`, `c` and `p`. -/
theorem processResponse_ok {w w' : World} {x : Nat} (h : processResponse w = (.ok x, w')) :
    ∃ len c p fcs, w.input = 0xfe :: len :: x :: c :: (p ++ fcs :: w'.input) ∧
      p.length = len ∧ xorAll (len ^^^ x ^^^ c) p = fcs ∧
      w'.out = w.out ++ frameLine x c p := by
  unfold processResponse at h
  split at h
  · simp at h
  · rename_i r1 sof wa h1
    obtain ⟨hr1, hi1, ho1, hl1⟩ := mustRead_ok h1
    obtain ⟨a, t, hin⟩ := cons_of_one_le _ hl1
    rw [hin] at hr1 hi1
    simp only [List.take_succ_cons, List.take_zero, List.drop_succ_cons, List.drop_zero,
      Prod.mk.injEq] at hr1 hi1
    obtain ⟨-, hsof⟩ := hr1
    subst hsof
    split at h
    · simp at h
    · rename_i hfe
      simp only [List.getD_cons_zero, ne_eq, Decidable.not_not] at hfe
      split at h
      · simp at h
      · rename_i r2 header wb h2
        obtain ⟨hr2, hi2, ho2, hl2⟩ := mustRead_ok h2
        rw [hi1] at hr2 hi2 hl2
        obtain ⟨l, t1, ht⟩ := cons_of_one_le t (by omega)
        rw [ht] at hr2 hi2 hl2
        obtain ⟨s, t2, ht1⟩ := cons_of_one_le t1 (by simp at hl2; omega)
        rw [ht1] at hr2 hi2 hl2
        obtain ⟨c, t3, ht2⟩ := cons_of_one_le t2 (by simp at hl2; omega)
        rw [ht2] at hr2 hi2
        simp only [List.take_succ_cons, List.take_zero, List.drop_succ_cons, List.drop_zero,
          Prod.mk.injEq] at hr2 hi2
        obtain ⟨-, hheader⟩ := hr2
        subst hheader
        simp only [List.getD_cons_zero, List.getD_cons_succ] at h
        split at h
        · simp at h
        · rename_i r3 packet wc h3
          obtain ⟨hr3, hi3, ho3, hl3⟩ := mustRead_ok h3
          rw [hi2] at hr3 hi3 hl3
          simp only [Prod.mk.injEq] at hr3
          obtain ⟨-, hpacket⟩ := hr3
          split at h
          · simp at h
          · rename_i r4 fcs wd h4
            obtain ⟨hr4, hi4, ho4, hl4⟩ := mustRead_ok h4
            obtain ⟨f, t4, ht3⟩ := cons_of_one_le _ hl4
            rw [ht3] at hr4 hi4
            simp only [List.take_succ_cons, List.take_zero, List.drop_succ_cons,
              List.drop_zero, Prod.mk.injEq] at hr4 hi4
            obtain ⟨-, hfcs⟩ := hr4
            subst hfcs
            simp only [List.getD_cons_zero] at h
            split at h
            · rename_i hx
              simp only [Prod.mk.injEq, Except.ok.injEq] at h
              obtain ⟨hs, hw⟩ := h
              subst hs; subst hw
              have ht3' : t3 = packet ++ f :: wd.input := by
                rw [← List.take_append_drop l t3, ← hpacket, ← hi3, ht3, hi4]
              have hplen : packet.length = l := by
                rw [hpacket, List.length_take]
                omega
              refine ⟨l, c, packet, f, ?_, hplen, hx, ?_⟩
              · show w.input = _
                rw [hin, hfe, ht, ht1, ht2, ht3']
              · show (List.foldl _ _ packet ++ "\n") = _
                have e : wd.out ++ fmt02x s ++ " " ++ fmt02x c =
                    w.out ++ (fmt02x s ++ " " ++ fmt02x c) := by
                  rw [ho4, ho3, ho2, ho1]
                  simp only [String.append_assoc]
                rw [e, foldl_print, String.append_assoc]
                rfl
            · simp at h

/-! ## Facts about the printed line -/

theorem intercalate_go_map (f : Nat → String) : ∀ (l : List Nat) (acc : String),
    String.intercalate.go acc " " (l.map f) = l.foldl (fun o b => o ++ " " ++ f b) acc := by
  intro l
  induction l with
  | nil => intro acc; rfl
  | cons a l ih =>
    intro acc
    simp only [List.map_cons, String.intercalate.go, List.foldl_cons]
    exact ih _

theorem frameLine_eq (s c : Nat) (p : List Nat) :
    frameLine s c p = String.intercalate " " ((s :: c :: p).map fmt02x) ++ "\n" := by
  unfold frameLine
  simp only [List.map_cons, String.intercalate, String.intercalate.go]
  rw [intercalate_go_map]

theorem foldl_print_length : ∀ (p : List Nat) (acc : String),
    (p.foldl (fun o b => o ++ " " ++ fmt02x b) acc).length = acc.length + 3 * p.length := by
  intro p
  induction p with
  | nil => intro acc; rfl
  | cons a l ih =>
    intro acc
    simp only [List.foldl_cons, List.length_cons]
    rw [ih]
    simp only [String.length_append]
    have h1 : (" " : String).length = 1 := rfl
    have h2 : (fmt02x a).length = 2 := rfl
    omega

theorem frameLine_length (s c : Nat) (p : List Nat) :
    (frameLine s c p).length = 3 * (p.length + 2) := by
  unfold frameLine
  rw [String.length_append, foldl_print_length]
  simp only [String.length_append]
  have h1 : (" " : String).length = 1 := rfl
  have h2 : (fmt02x s).length = 2 := rfl
  have h3 : (fmt02x c).length = 2 := rfl
  have h4 : ("\n" : String).length = 1 := rfl
  omega

theorem hexDigit_lower : ∀ d < 16, hexDigit d ∈ "0123456789abcdef".data := by
  decide

theorem fmt02x_digits (b : Nat) (hb : b < 256) :
    ∀ ch ∈ (fmt02x b).data, ch ∈ "0123456789abcdef".data := by
  intro ch hch
  have hd : (fmt02x b).data = [hexDigit (b / 16), hexDigit (b % 16)] := rfl
  rw [hd] at hch
  simp only [List.mem_cons, List.mem_singleton, List.not_mem_nil, or_false] at hch
  rcases hch with h | h
  · rw [h]; exact hexDigit_lower _ (by omega)
  · rw [h]; exact hexDigit_lower _ (by omega)

theorem fst_ok {w : World} {s : Nat} (h : (processResponse w).1 = .ok s) :
    processResponse w = (.ok s, (processResponse w).2) := by
  rw [← h]

/-- The bytes `FE 02 21 02 01 0A 2A` are accepted as a frame. -/
theorem accept_example :
    (processResponse ⟨[0xfe, 0x02, 0x21, 0x02, 0x01, 0x0a, 0x2a], [], ""⟩).1 = .ok 0x21 := by
  obtain ⟨w1, -, -, -, h4⟩ := processResponse_steady
    ⟨[0xfe, 0x02, 0x21, 0x02, 0x01, 0x0a, 0x2a], [], ""⟩ (by decide) 0x02 0x21 0x02 0x2a
    [0x01, 0x0a] [] rfl rfl
  rw [if_pos (by decide)] at h4
  rw [h4]

/-! ## Facts about tokens that do not scan -/

/-- The frame `buildFrame` hands to its loop: `make`, then the two assignments. -/
theorem buildFrame_unfold (args : List String) :
    buildFrame args =
      match buildLoop args 0
          (0xfe :: (((args.length : Int) - 2) % 256).toNat ::
            (List.replicate args.length 0 ++ [0]))
          (((args.length : Int) - 2) % 256).toNat with
      | .error e => .error e
      | .ok (frame, xor) => setIdx frame ((args.length : Int) - 2 + 4) xor := by
  have h5 : ((args.length : Int) - 2 + 5).toNat = args.length + 3 := by omega
  have hrep : List.replicate (args.length + 3) 0 =
      0 :: 0 :: (List.replicate args.length 0 ++ [0]) := by
    rw [List.replicate_succ, List.replicate_succ, List.replicate_succ']
  unfold buildFrame
  simp only []
  rw [if_neg (by omega), h5, hrep,
    setIdx_ok _ 0 0xfe 0 rfl (by simp)]
  simp only [List.set_cons_zero]
  rw [setIdx_ok _ 1 _ 1 rfl (by simp)]
  simp only [List.set_cons_succ, List.set_cons_zero]

/-- The loop of `buildFrame` dies with the parse error at the first token that does not
scan. -/
theorem buildLoop_fail : ∀ (args : List String) (i : Nat) (frame : List Nat) (xor : Nat),
    (∃ x ∈ args, sscanHex x = none) → i + 2 + args.length ≤ frame.length →
    ∃ x ∈ args, sscanHex x = none ∧ buildLoop args i frame xor = .error (.parseFailed x) := by
  intro args
  induction args with
  | nil => intro i frame xor h; simp at h
  | cons y rest ih =>
    intro i frame xor hex hlen
    have hlt : i + 2 < frame.length := by
      simp only [List.length_cons] at hlen
      omega
    cases hy : sscanHex y with
    | none =>
      refine ⟨y, List.mem_cons_self _ _, hy, ?_⟩
      rw [buildLoop, if_pos hlt, hy]
    | some v =>
      have hex' : ∃ x ∈ rest, sscanHex x = none := by
        obtain ⟨x, hx, hn⟩ := hex
        rcases List.mem_cons.mp hx with h | h
        · rw [h, hy] at hn; simp at hn
        · exact ⟨x, h, hn⟩
      obtain ⟨x, hx, hn, hb⟩ := ih (i + 1) (frame.set (i + 2) v) (xor ^^^ v) hex'
        (by simp only [List.length_set, List.length_cons] at hlen ⊢; omega)
      refine ⟨x, List.mem_cons_of_mem _ hx, hn, ?_⟩
      rw [buildLoop, if_pos hlt, hy]
      exact hb

/-- The function `buildFrame` dies with the parse error as soon as one token does not
scan, whatever the number of tokens. -/
theorem buildFrame_fail (args : List String) (hex : ∃ x ∈ args, sscanHex x = none) :
    ∃ x ∈ args, sscanHex x = none ∧ buildFrame args = .error (.parseFailed x) := by
  obtain ⟨x, hx, hn, hb⟩ := buildLoop_fail args 0
    (0xfe :: (((args.length : Int) - 2) % 256).toNat :: (List.replicate args.length 0 ++ [0]))
    (((args.length : Int) - 2) % 256).toNat hex
    (by simp only [List.length_cons, List.length_append, List.length_replicate,
          List.length_nil]; omega)
  refine ⟨x, hx, hn, ?_⟩
  rw [buildFrame_unfold, hb]

/-- The token the loop of `buildFrame` rejects is the first one that does not scan. -/
theorem buildLoop_first_fail : ∀ (args : List String) (i : Nat) (frame : List Nat)
    (xor : Nat), (∃ x ∈ args, sscanHex x = none) → i + 2 + args.length ≤ frame.length →
    ∃ pre x post, args = pre ++ x :: post ∧ (∀ y ∈ pre, sscanHex y ≠ none) ∧
      sscanHex x = none ∧ buildLoop args i frame xor = .error (.parseFailed x) := by
  intro args
  induction args with
  | nil => intro i frame xor h; simp at h
  | cons y rest ih =>
    intro i frame xor hex hlen
    have hlt : i + 2 < frame.length := by
      simp only [List.length_cons] at hlen
      omega
    cases hy : sscanHex y with
    | none =>
      refine ⟨[], y, rest, rfl, by simp, hy, ?_⟩
      rw [buildLoop, if_pos hlt, hy]
    | some v =>
      have hex' : ∃ x ∈ rest, sscanHex x = none := by
        obtain ⟨x, hx, hn⟩ := hex
        rcases List.mem_cons.mp hx with h | h
        · rw [h, hy] at hn; simp at hn
        · exact ⟨x, h, hn⟩
      obtain ⟨pre, x, post, he, hpre, hn, hb⟩ :=
        ih (i + 1) (frame.set (i + 2) v) (xor ^^^ v) hex'
          (by simp only [List.length_set, List.length_cons] at hlen ⊢; omega)
      refine ⟨y :: pre, x, post, by rw [he]; rfl, ?_, hn, ?_⟩
      · intro z hz
        rcases List.mem_cons.mp hz with h | h
        · rw [h, hy]; simp
        · exact hpre z h
      · rw [buildLoop, if_pos hlt, hy]
        exact hb

theorem buildFrame_first_fail (args : List String) (hex : ∃ x ∈ args, sscanHex x = none) :
    ∃ pre x post, args = pre ++ x :: post ∧ (∀ y ∈ pre, sscanHex y ≠ none) ∧
      sscanHex x = none ∧ buildFrame args = .error (.parseFailed x) := by
  obtain ⟨pre, x, post, he, hpre, hn, hb⟩ := buildLoop_first_fail args 0
    (0xfe :: (((args.length : Int) - 2) % 256).toNat :: (List.replicate args.length 0 ++ [0]))
    (((args.length : Int) - 2) % 256).toNat hex
    (by simp only [List.length_cons, List.length_append, List.length_replicate,
          List.length_nil]; omega)
  refine ⟨pre, x, post, he, hpre, hn, ?_⟩
  rw [buildFrame_unfold, hb]

theorem all_scan_vals (args : List String) (h : ¬ ∃ x ∈ args, sscanHex x = none) :
    ∃ vals : List Nat, args.map sscanHex = vals.map some := by
  induction args with
  | nil => exact ⟨[], rfl⟩
  | cons y rest ih =>
    obtain ⟨vs, hvs⟩ := ih (fun ⟨x, hx, hn⟩ => h ⟨x, List.mem_cons_of_mem _ hx, hn⟩)
    cases hy : sscanHex y with
    | none => exact absurd ⟨y, List.mem_cons_self _ _, hy⟩ h
    | some v => exact ⟨v :: vs, by simp [hy, hvs]⟩

/-- A call of `buildFrame` that returns has scanned every token. -/
theorem buildFrame_ok_vals {args : List String} {frame : List Nat}
    (h : buildFrame args = .ok frame) :
    ∃ vals : List Nat, args.map sscanHex = vals.map some := by
  apply all_scan_vals
  intro hex
  obtain ⟨x, -, -, hb⟩ := buildFrame_fail args hex
  rw [hb] at h
  simp at h

/-! ## Facts about hexadecimal digits -/

theorem hexVal_some {ch : Char} {d : Nat} (h : hexVal ch = some d) :
    d < 16 ∧ isSpace ch = false ∧ ch ≠ '\n' := by
  unfold hexVal at h
  simp only [] at h
  have hnl : ('\n' : Char).toNat = 10 := rfl
  split at h
  · rename_i hr
    simp only [Option.some.injEq] at h
    refine ⟨by omega, ?_, ?_⟩
    · unfold isSpace
      simp only [Bool.or_eq_false_iff, Bool.and_eq_false_iff, decide_eq_false_iff_not,
        beq_eq_false_iff_ne, ne_eq]
      omega
    · intro he; rw [he, hnl] at hr; omega
  · split at h
    · rename_i hr
      simp only [Option.some.injEq] at h
      refine ⟨by omega, ?_, ?_⟩
      · unfold isSpace
        simp only [Bool.or_eq_false_iff, Bool.and_eq_false_iff, decide_eq_false_iff_not,
          beq_eq_false_iff_ne, ne_eq]
        omega
      · intro he; rw [he, hnl] at hr; omega
    · split at h
      · rename_i hr
        simp only [Option.some.injEq] at h
        refine ⟨by omega, ?_, ?_⟩
        · unfold isSpace
          simp only [Bool.or_eq_false_iff, Bool.and_eq_false_iff, decide_eq_false_iff_not,
            beq_eq_false_iff_ne, ne_eq]
          omega
        · intro he; rw [he, hnl] at hr; omega
      · simp at h

/-- A token of exactly two hexadecimal digits scans to the value the digits spell. -/
theorem sscanHex_twoHex {x : String} {v : Nat} (h : twoHexValue x = some v) :
    sscanHex x = some v := by
  unfold twoHexValue at h
  split at h
  · rename_i a b hdata
    split at h
    · rename_i da db ha hb
      simp only [Option.some.injEq] at h
      obtain ⟨hda, hsa, hna⟩ := hexVal_some ha
      obtain ⟨hdb, -, -⟩ := hexVal_some hb
      unfold sscanHex
      rw [hdata]
      simp only [skipSpace, hna, hsa, if_false, ha, scanHexDigits, hb, Bool.false_eq_true]
      rw [if_pos (by omega), h]
    · simp at h
  · simp at h

theorem map_sscanHex_twoHex : ∀ (args : List String) (vals : List Nat),
    args.map twoHexValue = vals.map some → args.map sscanHex = vals.map some := by
  intro args
  induction args with
  | nil => intro vals h; simpa using h
  | cons x rest ih =>
    intro vals h
    cases vals with
    | nil => simp at h
    | cons v vs =>
      simp only [List.map_cons, List.cons.injEq] at h ⊢
      exact ⟨sscanHex_twoHex h.1, ih vs h.2⟩

/-! ## Facts about `main` -/

theorem openTty_ok (s : Sys) (h : ∀ b ∈ s.opens, b = true) :
    openTty s = (.ok (.tty s.count),
      { s with opens := s.opens.tail, count := s.count + 1,
               trace := s.trace ++ [.opened s.count] }) := by
  unfold openTty
  split
  · rename_i rest hcons
    have := h false (by rw [hcons]; exact List.mem_cons_self _ _)
    simp at this
  · rfl

theorem resetCommand_eq (a b f2 f3 : Nat) (tl : List Nat) (stdout : Bool) :
    resetCommand (a :: b :: f2 :: f3 :: tl) stdout =
      .ok (decide (f2 = 0x41 ∧ f3 = 0x00 ∧ stdout = false)) := by
  unfold resetCommand getIdx
  simp only [List.get?_cons_succ, List.get?_cons_zero]
  by_cases h2 : f2 = 0x41
  · rw [if_pos h2]
    by_cases h3 : f3 = 0x00 <;> cases stdout <;> simp [h2, h3]
  · rw [if_neg h2]
    simp [h2]

/-- A frame `buildFrame` returns for at least two arguments holds at least the
start-of-frame byte, the length byte, the subsystem byte and the command id. -/
theorem buildFrame_shape {args : List String} {frame : List Nat}
    (h : buildFrame args = .ok frame) (h2 : 2 ≤ args.length) :
    ∃ v0 v1 tl, frame = 0xfe :: (((args.length : Int) - 2) % 256).toNat :: v0 :: v1 :: tl := by
  obtain ⟨vals, hv⟩ := buildFrame_ok_vals h
  have hn : vals.length = args.length := by
    have := congrArg List.length hv
    simpa using this.symm
  rw [buildFrame_eq args vals hv] at h
  simp only [Except.ok.injEq] at h
  match vals, hn with
  | v0 :: v1 :: p, _ => exact ⟨v0, v1, p ++ [_], by rw [← h]; rfl⟩
  | [_], hn => simp at hn; omega
  | [], hn => simp at hn; omega

/-- With the flag `stdout` set, `main` writes the frame to standard output and returns. -/
theorem main_stdout (delay : Int) (args : List String) (s : Sys) (frame : List Nat)
    (h2 : 2 ≤ args.length) (h257 : args.length ≤ 257) (hb : buildFrame args = .ok frame) :
    main true delay args s = (.success, s.log (.write .stdout frame)) := by
  obtain ⟨v0, v1, tl, hf⟩ := buildFrame_shape hb h2
  unfold main
  simp only []
  rw [if_neg (by omega), hb]
  simp only []
  rw [hf, resetCommand_eq]
  simp

/-- Without the flag `stdout`, on a device that opens, `main` opens the tty, writes the
frame, goes through the reset sequence when the frame is the reset command, and hands the
tty over to the response loop. -/
theorem main_live (delay : Int) (args : List String) (s : Sys) (a b f2 f3 : Nat)
    (tl : List Nat) (h2 : 2 ≤ args.length) (h257 : args.length ≤ 257)
    (hb : buildFrame args = .ok (a :: b :: f2 :: f3 :: tl))
    (hopen : ∀ o ∈ s.opens, o = true) :
    (main false delay args s).2.trace =
      (if f2 = 0x41 ∧ f3 = 0x00 then
        s.trace ++ [.opened s.count, .write (.tty s.count) (a :: b :: f2 :: f3 :: tl),
          .close (.tty s.count), .sleep (sleepNanos delay), .opened (s.count + 1),
          .write (.tty (s.count + 1)) [0xef], .close (.tty (s.count + 1)),
          .opened (s.count + 2), .respond (.tty (s.count + 2))]
      else
        s.trace ++ [.opened s.count, .write (.tty s.count) (a :: b :: f2 :: f3 :: tl),
          .respond (.tty s.count)]) ∧
    (main false delay args s).2.world = (matchLoop f2 s.world).2 ∧
    (main false delay args s).1 =
      (match (matchLoop f2 s.world).1 with
        | .ok _ => Exit.success
        | .error e => Exit.fatal e) := by
  have hopen1 : ∀ o ∈ s.opens.tail, o = true :=
    fun o ho => hopen o (List.mem_of_mem_tail ho)
  have hopen2 : ∀ o ∈ s.opens.tail.tail, o = true :=
    fun o ho => hopen1 o (List.mem_of_mem_tail ho)
  unfold main
  simp only []
  rw [if_neg (by omega), hb]
  simp only []
  rw [resetCommand_eq]
  simp only [Bool.false_eq_true, if_false, and_true]
  rw [openTty_ok s hopen]
  simp only []
  by_cases hr : f2 = 0x41 ∧ f3 = 0x00
  · rw [if_pos hr]
    simp only [hr, and_self, decide_True, if_true]
    unfold resetSequence
    simp only [Sys.log]
    rw [openTty_ok _ hopen1]
    simp only []
    rw [openTty_ok _ hopen2]
    simp only [getIdx, List.get?_cons_succ, List.get?_cons_zero, Sys.log]
    generalize matchLoop _ s.world = res
    obtain ⟨r, w⟩ := res
    cases r <;> simp [List.append_assoc]
  · rw [if_neg hr]
    simp only [hr, decide_False, Bool.false_eq_true, if_false]
    simp only [getIdx, List.get?_cons_succ, List.get?_cons_zero, Sys.log]
    generalize matchLoop _ s.world = res
    obtain ⟨r, w⟩ := res
    cases r <;> simp [List.append_assoc]

theorem main_not_usage (stdout : Bool) (delay : Int) (args : List String) (s : Sys)
    (h2 : 2 ≤ args.length) (h257 : args.length ≤ 257) :
    (main stdout delay args s).1 ≠ .usage := by
  unfold main
  simp only []
  rw [if_neg (by omega)]
  repeat' split
  all_goals simp

/-! ## The claims on `main` -/

theorem sleepNanos_seconds (d : Int) (h0 : 0 ≤ d) (h1 : d ≤ 9223372036) :
    sleepNanos d = d * 1000000000 := by
  unfold sleepNanos toInt64
  omega

/-- For a request whose subsystem byte is `0x41` and whose command id is `0x00`, sent to
the tty on a device that opens, the operations of `main` between the first `open` and the
start of the response loop are: write the frame, close, sleep, open, write the byte
`0xEF`, close, open. The sleep lasts `d` seconds when `0 ≤ d ≤ 9223372036`. -/
theorem reset_sequence (d : Int) (args : List String) (p : List Nat) (s : Sys)
    (hv : args.map sscanHex = (0x41 :: 0x00 :: p).map some) (h257 : args.length ≤ 257)
    (hopen : ∀ o ∈ s.opens, o = true) :
    ∃ frame, buildFrame args = .ok frame ∧
      (main false d args s).2.trace =
        s.trace ++ [.opened s.count] ++
          [.write (.tty s.count) frame, .close (.tty s.count), .sleep (sleepNanos d),
            .opened (s.count + 1), .write (.tty (s.count + 1)) [0xef],
            .close (.tty (s.count + 1)), .opened (s.count + 2)] ++
          [.respond (.tty (s.count + 2))] ∧
      (0 ≤ d → d ≤ 9223372036 → sleepNanos d = d * 1000000000) := by
  have hn : args.length = p.length + 2 := by
    have := congrArg List.length hv
    simpa using this
  have hb := buildFrame_eq args _ hv
  refine ⟨_, hb, ?_, sleepNanos_seconds d⟩
  have := (main_live d args s _ _ 0x41 0x00 _ (by omega) h257 hb hopen).1
  rw [if_pos ⟨rfl, rfl⟩] at this
  rw [this]
  simp [List.append_assoc]

/-- C11 (reset sequence ordering) fails on the code for a large delay: for the request
`41 00` with `--delay 18446744074`, the operations of `main` come in the order the claim
gives, but the sleep lasts 290448384 nanoseconds (0.29 s) and not 18446744074 seconds,
because the product `time.Second * time.Duration(delay)` wraps around in `int64`. -/
theorem reset_sleep_overflow :
    (main false 18446744074 ["41", "00"] ⟨⟨[], [], ""⟩, [], 0, []⟩).2.trace =
      [.opened 0, .write (.tty 0) [0xfe, 0x00, 0x41, 0x00, 0x41], .close (.tty 0),
        .sleep 290448384, .opened 1, .write (.tty 1) [0xef], .close (.tty 1), .opened 2,
        .respond (.tty 2)] ∧
    sleepNanos 18446744074 = 290448384 ∧
    (290448384 : Int) ≠ 18446744074 * 1000000000 ∧
    sleepNanos 2 = 2 * 1000000000 := by
  have hs : sleepNanos 18446744074 = 290448384 := by decide
  have hb : buildFrame ["41", "00"] = .ok [0xfe, 0x00, 0x41, 0x00, 0x41] := rfl
  have := (main_live 18446744074 ["41", "00"] ⟨⟨[], [], ""⟩, [], 0, []⟩ _ _ 0x41 0x00 _
    (by decide) (by decide) hb (by decide)).1
  rw [if_pos ⟨rfl, rfl⟩, hs] at this
  exact ⟨this, hs, by decide, by decide⟩

/-- C12 (reset trigger): for every request that passes the length check and whose tokens
scan, on a device that opens, `main` closes a handle, sleeps and writes the byte `0xEF` if
and only if the frame has subsystem byte `0x41` and command id `0x00` and the flag
`stdout` is not set, and then it performs the whole reset sequence; for every other
request sent to the tty the operations are: open, write the frame, response loop on that
same handle. -/
theorem reset_trigger (stdout : Bool) (d : Int) (args : List String) (s : Sys)
    (frame : List Nat) (h2 : 2 ≤ args.length) (h257 : args.length ≤ 257)
    (hb : buildFrame args = .ok frame) (hopen : ∀ o ∈ s.opens, o = true)
    (ht : s.trace = []) :
    ((∃ h, Op.close h ∈ (main stdout d args s).2.trace) ↔
      (frame.getD 2 0 = 0x41 ∧ frame.getD 3 0 = 0x00 ∧ stdout = false)) ∧
    ((∃ t, Op.sleep t ∈ (main stdout d args s).2.trace) ↔
      (frame.getD 2 0 = 0x41 ∧ frame.getD 3 0 = 0x00 ∧ stdout = false)) ∧
    ((∃ h, Op.write h [0xef] ∈ (main stdout d args s).2.trace) ↔
      (frame.getD 2 0 = 0x41 ∧ frame.getD 3 0 = 0x00 ∧ stdout = false)) ∧
    (frame.getD 2 0 = 0x41 ∧ frame.getD 3 0 = 0x00 ∧ stdout = false →
      (main stdout d args s).2.trace =
        [.opened s.count, .write (.tty s.count) frame, .close (.tty s.count),
          .sleep (sleepNanos d),
          .opened (s.count + 1), .write (.tty (s.count + 1)) [0xef],
          .close (.tty (s.count + 1)), .opened (s.count + 2),
          .respond (.tty (s.count + 2))]) ∧
    (stdout = false → ¬ (frame.getD 2 0 = 0x41 ∧ frame.getD 3 0 = 0x00) →
      (main stdout d args s).2.trace =
        [.opened s.count, .write (.tty s.count) frame, .respond (.tty s.count)]) := by
  obtain ⟨v0, v1, tl, hf⟩ := buildFrame_shape hb h2
  subst hf
  simp only [List.getD_cons_succ, List.getD_cons_zero]
  cases stdout with
  | true =>
    rw [main_stdout d args s _ h2 h257 hb]
    simp [Sys.log, ht]
  | false =>
    have := (main_live d args s _ _ v0 v1 tl h2 h257 hb hopen).1
    rw [this, ht]
    by_cases hr : v0 = 0x41 ∧ v1 = 0x00
    · rw [if_pos hr]
      simp [hr]
    · rw [if_neg hr]
      simp [hr]

theorem reset_trigger_witness :
    (2 ≤ ["21", "00"].length ∧ ["21", "00"].length ≤ 257 ∧
      buildFrame ["21", "00"] = .ok [0xfe, 0x00, 0x21, 0x00, 0x21] ∧
      (∀ o ∈ (Sys.mk ⟨[], [], ""⟩ [] 0 []).opens, o = true) ∧
      (Sys.mk ⟨[], [], ""⟩ [] 0 []).trace = []) ∧
    (false = false →
      ¬ ([0xfe, 0x00, 0x21, 0x00, 0x21].getD 2 0 = 0x41 ∧
          [0xfe, 0x00, 0x21, 0x00, 0x21].getD 3 0 = 0x00) →
      (main false 0 ["21", "00"] ⟨⟨[], [], ""⟩, [], 0, []⟩).2.trace =
        [.opened 0, .write (.tty 0) [0xfe, 0x00, 0x21, 0x00, 0x21], .respond (.tty 0)]) :=
  ⟨⟨by decide, by decide, rfl, by decide, rfl⟩,
    (reset_trigger false 0 ["21", "00"] ⟨⟨[], [], ""⟩, [], 0, []⟩
      [0xfe, 0x00, 0x21, 0x00, 0x21] (by decide) (by decide) rfl (by decide) rfl).2.2.2.2⟩

/-- C13 (stdout mode): with the flag `stdout` set, for every request that passes the length
check and whose tokens scan, the reset command `41 00` included, `main` opens no tty,
performs the single operation of writing the frame `buildFrame` returned to standard
output, prints nothing else, reads nothing and returns. -/
theorem stdout_mode (d : Int) (args : List String) (s : Sys) (frame : List Nat)
    (h2 : 2 ≤ args.length) (h257 : args.length ≤ 257) (hb : buildFrame args = .ok frame) :
    (main true d args s).1 = .success ∧
    (main true d args s).2.trace = s.trace ++ [.write .stdout frame] ∧
    (main true d args s).2.world = s.world ∧
    (main true d args s).2.count = s.count ∧ (main true d args s).2.opens = s.opens := by
  rw [main_stdout d args s frame h2 h257 hb]
  exact ⟨rfl, rfl, rfl, rfl, rfl⟩

theorem stdout_mode_witness :
    (2 ≤ ["41", "00"].length ∧ ["41", "00"].length ≤ 257 ∧
      buildFrame ["41", "00"] = .ok [0xfe, 0x00, 0x41, 0x00, 0x41]) ∧
    (main true 3 ["41", "00"] ⟨⟨[0xfe, 0x00], [], ""⟩, [], 0, []⟩).1 = .success ∧
    (main true 3 ["41", "00"] ⟨⟨[0xfe, 0x00], [], ""⟩, [], 0, []⟩).2.trace =
      (Sys.mk ⟨[0xfe, 0x00], [], ""⟩ [] 0 []).trace ++
        [.write .stdout [0xfe, 0x00, 0x41, 0x00, 0x41]] ∧
    (main true 3 ["41", "00"] ⟨⟨[0xfe, 0x00], [], ""⟩, [], 0, []⟩).2.world =
      (Sys.mk ⟨[0xfe, 0x00], [], ""⟩ [] 0 []).world ∧
    (main true 3 ["41", "00"] ⟨⟨[0xfe, 0x00], [], ""⟩, [], 0, []⟩).2.count =
      (Sys.mk ⟨[0xfe, 0x00], [], ""⟩ [] 0 []).count ∧
    (main true 3 ["41", "00"] ⟨⟨[0xfe, 0x00], [], ""⟩, [], 0, []⟩).2.opens =
      (Sys.mk ⟨[0xfe, 0x00], [], ""⟩ [] 0 []).opens :=
  ⟨⟨by decide, by decide, rfl⟩,
    stdout_mode 3 ["41", "00"] ⟨⟨[0xfe, 0x00], [], ""⟩, [], 0, []⟩
      [0xfe, 0x00, 0x41, 0x00, 0x41] (by decide) (by decide) rfl⟩

theorem map_sscanHex_replicate (n : Nat) :
    (List.replicate n "00").map sscanHex = (List.replicate n 0).map some := by
  have h : sscanHex "00" = some 0 := by decide
  simp [List.map_replicate, h]

theorem foldl_xor_replicate_zero (x : Nat) : ∀ n : Nat,
    List.foldl (fun a v => a ^^^ v) x (List.replicate n 0) = x := by
  intro n
  induction n with
  | zero => rfl
  | succ n ih => rw [List.replicate_succ, List.foldl_cons, Nat.xor_zero, ih]

/-- C14 as stated fails: a request of 256 tokens, which implies a payload of 254 bytes, is
not rejected; with the flag `stdout` set `main` writes its frame, whose length byte is
`0xFE`, and returns. -/
theorem argument_count_counterexample :
    ((List.replicate 256 "00").length : Int) - 2 = 254 ∧
    (main true 0 (List.replicate 256 "00") ⟨⟨[], [], ""⟩, [], 0, []⟩).1 = .success ∧
    (main true 0 (List.replicate 256 "00") ⟨⟨[], [], ""⟩, [], 0, []⟩).2.trace =
      [.write .stdout (0xfe :: 0xfe :: (List.replicate 256 0 ++ [0xfe]))] := by
  have hl : (List.replicate 256 "00").length = 256 := List.length_replicate _ _
  have hb := buildFrame_eq _ _ (map_sscanHex_replicate 256)
  rw [foldl_xor_replicate_zero, hl] at hb
  have hL : (((256 : Nat) : Int) - 2) % 256 = 254 := by decide
  rw [hL] at hb
  rw [main_stdout 0 _ _ _ (by rw [hl]; decide) (by rw [hl]; decide) hb, hl]
  exact ⟨by decide, rfl, rfl⟩

/-- C14 (amended): `main` rejects a request with the usage error if and only if the number
of positional tokens minus 2 lies outside `[0, 255]`, that is with fewer than 2 or more
than 257 tokens; it does so before `buildFrame` is called, having printed the usage line
and done nothing else. Every frame encoded for an accepted request has a length byte equal
to the number of tokens minus 2, between 0 and 255. -/
theorem argument_count (stdout : Bool) (d : Int) (args : List String) (s : Sys) :
    ((main stdout d args s).1 = .usage ↔ (args.length < 2 ∨ 257 < args.length)) ∧
    (args.length < 2 ∨ 257 < args.length →
      main stdout d args s =
        (.usage, { s with world := { s.world with out := s.world.out ++ usageText } })) ∧
    (2 ≤ args.length → args.length ≤ 257 → ∀ frame, buildFrame args = .ok frame →
      frame.getD 1 0 = args.length - 2 ∧ frame.getD 1 0 ≤ 255) := by
  have hrej : args.length < 2 ∨ 257 < args.length →
      main stdout d args s =
        (.usage, { s with world := { s.world with out := s.world.out ++ usageText } }) := by
    intro h
    unfold main
    simp only []
    rw [if_pos (by omega)]
  refine ⟨⟨?_, fun h => by rw [hrej h]⟩, hrej, ?_⟩
  · intro hu
    by_contra hc
    exact main_not_usage stdout d args s (by omega) (by omega) hu
  · intro h2 h257 frame hb
    obtain ⟨v0, v1, tl, hf⟩ := buildFrame_shape hb h2
    subst hf
    simp only [List.getD_cons_succ, List.getD_cons_zero]
    omega

theorem argument_count_witness :
    (["21"].length < 2 ∨ 257 < ["21"].length) ∧
    main false 0 ["21"] ⟨⟨[0xfe], [], ""⟩, [], 0, []⟩ =
      (.usage, { (Sys.mk ⟨[0xfe], [], ""⟩ [] 0 []) with
        world := { (Sys.mk ⟨[0xfe], [], ""⟩ [] 0 []).world with
          out := (Sys.mk ⟨[0xfe], [], ""⟩ [] 0 []).world.out ++ usageText } }) :=
  ⟨by decide,
    (argument_count false 0 ["21"] ⟨⟨[0xfe], [], ""⟩, [], 0, []⟩).2.1 (by decide)⟩

/-- C15 (printed line format): for every frame `processResponse` accepts on an input of
bytes, the text it prints is the subsystem byte, the command id and each payload byte in
order, each as two lowercase hexadecimal digits, separated by single spaces and followed
by one newline; the start-of-frame byte, the length byte and the fcs are not printed. For
a payload of `n` bytes the line has `3 * (n + 2) - 1` characters before the newline. -/
theorem printed_line_format (w : World) (s : Nat)
    (h : (processResponse w).1 = .ok s) (hbytes : ∀ b ∈ w.input, b < 256) :
    ∃ c p fcs,
      w.input = 0xfe :: p.length :: s :: c :: (p ++ fcs :: (processResponse w).2.input) ∧
      (processResponse w).2.out =
        w.out ++ (String.intercalate " " ((s :: c :: p).map fmt02x) ++ "\n") ∧
      (String.intercalate " " ((s :: c :: p).map fmt02x)).length = 3 * (p.length + 2) - 1 ∧
      ∀ b ∈ s :: c :: p, (fmt02x b).length = 2 ∧
        (∀ ch ∈ (fmt02x b).data, ch ∈ "0123456789abcdef".data) ∧
        sscanHex (fmt02x b) = some b := by
  obtain ⟨len, c, p, fcs, hin, hp, -, hout⟩ := processResponse_ok (fst_ok h)
  subst hp
  refine ⟨c, p, fcs, hin, ?_, ?_, ?_⟩
  · rw [hout, frameLine_eq]
  · have h1 := frameLine_length s c p
    rw [frameLine_eq, String.length_append] at h1
    have h4 : ("\n" : String).length = 1 := rfl
    omega
  · intro b hb
    have hlt : b < 256 := by
      apply hbytes
      rw [hin]
      simp only [List.mem_cons, List.mem_append] at hb ⊢
      rcases hb with h | h | h
      · right; right; left; exact h
      · right; right; right; left; exact h
      · right; right; right; right; left; exact h
    exact ⟨rfl, fmt02x_digits b hlt, sscanHex_fmt02x b hlt⟩

theorem printed_line_format_witness :
    ((processResponse ⟨[0xfe, 0x02, 0x21, 0x02, 0x01, 0x0a, 0x2a], [], ""⟩).1 = .ok 0x21 ∧
      (∀ b ∈ (World.mk [0xfe, 0x02, 0x21, 0x02, 0x01, 0x0a, 0x2a] [] "").input, b < 256)) ∧
    ("21 02 01 0a".length = 3 * ([0x01, 0x0a].length + 2) - 1 ∧
      String.intercalate " " ((0x21 :: 0x02 :: [0x01, 0x0a]).map fmt02x) ++ "\n" =
        "21 02 01 0a\n") ∧
    ∃ c p fcs, (World.mk [0xfe, 0x02, 0x21, 0x02, 0x01, 0x0a, 0x2a] [] "").input =
        0xfe :: p.length :: 0x21 :: c :: (p ++ fcs ::
          (processResponse ⟨[0xfe, 0x02, 0x21, 0x02, 0x01, 0x0a, 0x2a], [], ""⟩).2.input) ∧
      (processResponse ⟨[0xfe, 0x02, 0x21, 0x02, 0x01, 0x0a, 0x2a], [], ""⟩).2.out =
        (World.mk [0xfe, 0x02, 0x21, 0x02, 0x01, 0x0a, 0x2a] [] "").out ++
          (String.intercalate " " ((0x21 :: c :: p).map fmt02x) ++ "\n") ∧
      (String.intercalate " " ((0x21 :: c :: p).map fmt02x)).length =
        3 * (p.length + 2) - 1 ∧
      ∀ b ∈ 0x21 :: c :: p, (fmt02x b).length = 2 ∧
        (∀ ch ∈ (fmt02x b).data, ch ∈ "0123456789abcdef".data) ∧
        sscanHex (fmt02x b) = some b :=
  ⟨⟨accept_example, by decide⟩, ⟨by decide, by decide⟩,
    printed_line_format ⟨[0xfe, 0x02, 0x21, 0x02, 0x01, 0x0a, 0x2a], [], ""⟩ 0x21
      accept_example (by decide)⟩

/-! ## The shape of the tokens that scan -/

theorem skipSpace_append (sp r : List Char)
    (hsp : ∀ c ∈ sp, isSpace c = true ∧ c ≠ '\n') : skipSpace (sp ++ r) = skipSpace r := by
  induction sp with
  | nil => rfl
  | cons c cs ih =>
    obtain ⟨h1, h2⟩ := hsp c (List.mem_cons_self _ _)
    show skipSpace (c :: (cs ++ r)) = skipSpace r
    rw [skipSpace, if_neg h2, if_pos h1]
    exact ih (fun d hd => hsp d (List.mem_cons_of_mem _ hd))

theorem skipSpace_some : ∀ (l r : List Char), skipSpace l = some r →
    ∃ sp, l = sp ++ r ∧ (∀ c ∈ sp, isSpace c = true ∧ c ≠ '\n') ∧
      (∀ c cs, r = c :: cs → isSpace c = false) := by
  intro l
  induction l with
  | nil =>
    intro r h
    simp only [skipSpace, Option.some.injEq] at h
    subst h
    exact ⟨[], rfl, by simp, by simp⟩
  | cons c cs ih =>
    intro r h
    rw [skipSpace] at h
    split at h
    · simp at h
    · rename_i hn
      split at h
      · rename_i hs
        obtain ⟨sp, h1, h2, h3⟩ := ih r h
        refine ⟨c :: sp, by rw [h1]; rfl, ?_, h3⟩
        intro d hd
        rcases List.mem_cons.mp hd with e | e
        · rw [e]; exact ⟨hs, hn⟩
        · exact h2 d e
      · rename_i hs
        simp only [Option.some.injEq] at h
        subst h
        refine ⟨[], rfl, by simp, ?_⟩
        intro d ds hd
        simp only [List.cons.injEq] at hd
        rw [← hd.1]
        simpa using hs

theorem scanHexDigits_append : ∀ (ds rest : List Char) (acc : Nat),
    (∀ c ∈ ds, hexVal c ≠ none) → (∀ c cs, rest = c :: cs → hexVal c = none) →
    scanHexDigits (ds ++ rest) acc =
      ds.foldl (fun a c => 16 * a + (hexVal c).getD 0) acc := by
  intro ds
  induction ds with
  | nil =>
    intro rest acc _ hrest
    cases rest with
    | nil => rfl
    | cons c cs =>
      show scanHexDigits (c :: cs) acc = acc
      rw [scanHexDigits, hrest c cs rfl]
  | cons d ds ih =>
    intro rest acc hds hrest
    have hd := hds d (List.mem_cons_self _ _)
    cases hv : hexVal d with
    | none => exact absurd hv hd
    | some v =>
      show scanHexDigits (d :: (ds ++ rest)) acc = _
      rw [scanHexDigits, hv]
      simp only [List.foldl_cons, hv, Option.getD_some]
      exact ih rest _ (fun c hc => hds c (List.mem_cons_of_mem _ hc)) hrest

theorem span_hex : ∀ cs : List Char, ∃ ds rest, cs = ds ++ rest ∧
    (∀ c ∈ ds, hexVal c ≠ none) ∧ (∀ c t, rest = c :: t → hexVal c = none) := by
  intro cs
  induction cs with
  | nil => exact ⟨[], [], rfl, by simp, by simp⟩
  | cons c cs ih =>
    cases hv : hexVal c with
    | none =>
      refine ⟨[], c :: cs, rfl, by simp, ?_⟩
      intro d t hd
      simp only [List.cons.injEq] at hd
      rw [← hd.1]; exact hv
    | some v =>
      obtain ⟨ds, rest, h1, h2, h3⟩ := ih
      refine ⟨c :: ds, rest, by rw [h1]; rfl, ?_, h3⟩
      intro d hd
      rcases List.mem_cons.mp hd with e | e
      · rw [e, hv]; simp
      · exact h2 d e

/-- The scan of a token of the shape: white space, digits `ds`, then `rest`. -/
theorem sscanHex_shape (x : String) (sp ds rest : List Char) (hx : x.data = sp ++ (ds ++ rest))
    (hsp : ∀ c ∈ sp, isSpace c = true ∧ c ≠ '\n') (hne : ds ≠ [])
    (hds : ∀ c ∈ ds, hexVal c ≠ none) (hrest : ∀ c cs, rest = c :: cs → hexVal c = none) :
    sscanHex x = if hexNumber ds < 256 then some (hexNumber ds) else none := by
  cases ds with
  | nil => exact absurd rfl hne
  | cons d ds =>
    have hd := hds d (List.mem_cons_self _ _)
    cases hv : hexVal d with
    | none => exact absurd hv hd
    | some v =>
      obtain ⟨-, hs, hn⟩ := hexVal_some hv
      unfold sscanHex
      rw [hx, skipSpace_append sp _ hsp]
      show (match skipSpace (d :: (ds ++ rest)) with
        | none => none
        | some [] => none
        | some (c :: cs) => _) = _
      rw [skipSpace, if_neg hn, hs]
      simp only [Bool.false_eq_true, if_false, hv]
      rw [scanHexDigits_append ds rest v (fun c hc => hds c (List.mem_cons_of_mem _ hc)) hrest]
      have e : hexNumber (d :: ds) =
          ds.foldl (fun a c => 16 * a + (hexVal c).getD 0) v := by
        simp [hexNumber, hv]
      rw [e]

/-- A token scans with value `v` exactly when it has the shape of a byte token: white
space other than a newline, then one or more hexadecimal digits of value `v ≤ 0xFF`, then
nothing or a character that is no hexadecimal digit, followed by anything. -/
theorem sscanHex_iff (x : String) (v : Nat) :
    sscanHex x = some v ↔ TokenShape x v ∧ v ≤ 0xff := by
  constructor
  · intro h
    have h0 := h
    unfold sscanHex at h
    split at h
    · simp at h
    · simp at h
    · rename_i c cs hsk
      obtain ⟨sp, hl, hsp, -⟩ := skipSpace_some _ _ hsk
      split at h
      · simp at h
      · rename_i d hd
        obtain ⟨ds, rest, hcs, hds, hrest⟩ := span_hex cs
        have hds' : ∀ e ∈ c :: ds, hexVal e ≠ none := by
          intro e he
          rcases List.mem_cons.mp he with q | q
          · rw [q, hd]; simp
          · exact hds e q
        have hsh := sscanHex_shape x sp (c :: ds) rest (by rw [hl, hcs]; rfl) hsp
          (List.cons_ne_nil _ _) hds' hrest
        rw [h0] at hsh
        by_cases hlt : hexNumber (c :: ds) < 256
        · rw [if_pos hlt] at hsh
          simp only [Option.some.injEq] at hsh
          refine ⟨⟨sp, c :: ds, rest, by rw [hl, hcs]; rfl, hsp, List.cons_ne_nil _ _,
            hds', hrest, hsh.symm⟩, ?_⟩
          omega
        · rw [if_neg hlt] at hsh
          simp at hsh
  · rintro ⟨⟨sp, ds, rest, hx, hsp, hne, hds, hrest, hv⟩, hle⟩
    rw [sscanHex_shape x sp ds rest hx hsp hne hds hrest, hv, if_pos (by omega)]

/-- C16 as stated fails: the one-digit token `1` and the token `21zz`, which has trailing
characters that are not hexadecimal digits, are not exactly two hexadecimal digits, yet
`buildFrame` accepts them with the values `0x01` and `0x21`. -/
theorem hex_token_counterexample :
    twoHexValue "1" = none ∧ twoHexValue "21zz" = none ∧
    buildFrame ["1", "02"] = .ok [0xfe, 0x00, 0x01, 0x02, 0x03] ∧
    buildFrame ["21zz", "02"] = .ok [0xfe, 0x00, 0x21, 0x02, 0x23] :=
  ⟨by decide, by decide, rfl, rfl⟩

theorem sscanHex_empty : sscanHex "" = none := by decide

/-- A token whose first character is neither white space nor a hexadecimal digit does not
scan. -/
theorem sscanHex_bad_start (x : String) (ch : Char) (cs : List Char)
    (hx : x.data = ch :: cs) (hsp : isSpace ch = false) (hv : hexVal ch = none) :
    sscanHex x = none := by
  unfold sscanHex
  rw [hx]
  by_cases hn : ch = '\n'
  · simp [skipSpace, hn]
  · simp [skipSpace, hn, hsp, hv]

/-- A token that is one hexadecimal digit scans to the value of the digit. -/
theorem sscanHex_one_digit (ch : Char) (d : Nat) (hv : hexVal ch = some d) :
    sscanHex (String.mk [ch]) = some d := by
  obtain ⟨hd, hsp, hn⟩ := hexVal_some hv
  unfold sscanHex
  simp only [skipSpace, hn, hsp, if_false, hv, scanHexDigits, Bool.false_eq_true]
  rw [if_pos (by omega)]

/-- A token that starts with two hexadecimal digits followed by another character scans
to the value of the two digits: what follows is not looked at. -/
theorem sscanHex_trailing (a b ch : Char) (rest : List Char) (da db : Nat)
    (ha : hexVal a = some da) (hb : hexVal b = some db) (hc : hexVal ch = none) :
    sscanHex (String.mk (a :: b :: ch :: rest)) = some (16 * da + db) := by
  obtain ⟨hda, hsp, hn⟩ := hexVal_some ha
  obtain ⟨hdb, -, -⟩ := hexVal_some hb
  unfold sscanHex
  simp only [skipSpace, hn, hsp, if_false, ha, scanHexDigits, hb, hc, Bool.false_eq_true]
  rw [if_pos (by omega)]

theorem map_of_forall₂_shape : ∀ (args : List String) (vals : List Nat),
    List.Forall₂ (fun x v => TokenShape x v ∧ v ≤ 0xff) args vals →
    args.map sscanHex = vals.map some := by
  intro args vals h
  induction h with
  | nil => rfl
  | cons hxv _ ih =>
    simp only [List.map_cons, List.cons.injEq]
    exact ⟨(sscanHex_iff _ _).mpr hxv, ih⟩

theorem sscanHex_none_iff (x : String) :
    sscanHex x = none ↔ ∀ v, TokenShape x v → 0xff < v := by
  constructor
  · intro h v hv
    by_contra hle
    have := (sscanHex_iff x v).mpr ⟨hv, by omega⟩
    rw [h] at this
    simp at this
  · intro h
    cases hs : sscanHex x with
    | none => rfl
    | some v =>
      obtain ⟨hv, hle⟩ := (sscanHex_iff x v).mp hs
      have := h v hv
      omega

/-- C16 (amended): `buildFrame` dies with the parse error, naming the first such token,
exactly when some token does not scan as a byte under `%x`. A token scans with value `v`
exactly when it consists of white space other than a newline (possibly none), then one or
more hexadecimal digits whose base-16 value is `v ≤ 0xFF`, then nothing or a character
that is no hexadecimal digit followed by anything. So an empty token and a token whose
first character is neither white space nor a hexadecimal digit do not scan; a token of one
hexadecimal digit scans with the value of the digit; a token of two hexadecimal digits
followed by a character that is no hexadecimal digit scans with the value of the two
digits (`21zz` gives `0x21`), while `123zz` does not scan because `0x123 > 0xFF`. For
every list of tokens that all scan, in particular tokens that are each exactly two
hexadecimal digits, `buildFrame` succeeds with frame byte `i + 2` equal to the value of
token `i`. -/
theorem hex_token_validation (args : List String) :
    ((∃ x ∈ args, sscanHex x = none) ↔ ∃ x, buildFrame args = .error (.parseFailed x)) ∧
    ((∃ x ∈ args, ∀ v, TokenShape x v → 0xff < v) ↔
      ∃ x, buildFrame args = .error (.parseFailed x)) ∧
    ((∃ x ∈ args, sscanHex x = none) →
      ∃ pre x post, args = pre ++ x :: post ∧ (∀ y ∈ pre, sscanHex y ≠ none) ∧
        sscanHex x = none ∧ buildFrame args = .error (.parseFailed x)) ∧
    (∀ x v, sscanHex x = some v ↔ TokenShape x v ∧ v ≤ 0xff) ∧
    (sscanHex "" = none ∧
      ∀ (x : String) ch cs, x.data = ch :: cs → isSpace ch = false → hexVal ch = none →
        sscanHex x = none) ∧
    (∀ ch d, hexVal ch = some d → sscanHex (String.mk [ch]) = some d) ∧
    (∀ a b ch rest da db, hexVal a = some da → hexVal b = some db → hexVal ch = none →
      sscanHex (String.mk (a :: b :: ch :: rest)) = some (16 * da + db)) ∧
    (buildFrame ["21zz", "02"] = .ok [0xfe, 0x00, 0x21, 0x02, 0x23] ∧
      buildFrame ["123zz", "02"] = .error (.parseFailed "123zz")) ∧
    (∀ vals : List Nat, List.Forall₂ (fun x v => TokenShape x v ∧ v ≤ 0xff) args vals →
      ∃ frame, buildFrame args = .ok frame ∧ (frame.drop 2).take args.length = vals ∧
        ∀ i, i < args.length → frame.getD (i + 2) 0 = vals.getD i 0) ∧
    (∀ vals : List Nat, args.map twoHexValue = vals.map some →
      ∃ frame, buildFrame args = .ok frame ∧ (frame.drop 2).take args.length = vals ∧
        ∀ i, i < args.length → frame.getD (i + 2) 0 = vals.getD i 0) := by
  have hfail : (∃ x ∈ args, sscanHex x = none) →
      ∃ x, buildFrame args = .error (.parseFailed x) := by
    intro h
    obtain ⟨x, -, -, hb⟩ := buildFrame_fail args h
    exact ⟨x, hb⟩
  have hconv : (∃ x, buildFrame args = .error (.parseFailed x)) →
      ∃ x ∈ args, sscanHex x = none := by
    rintro ⟨x, hx⟩
    by_contra hno
    obtain ⟨vals, hv⟩ := all_scan_vals args hno
    rw [buildFrame_eq args vals hv] at hx
    simp at hx
  have hok : ∀ vals : List Nat, args.map sscanHex = vals.map some →
      ∃ frame, buildFrame args = .ok frame ∧ (frame.drop 2).take args.length = vals ∧
        ∀ i, i < args.length → frame.getD (i + 2) 0 = vals.getD i 0 := by
    intro vals hv
    have hn : vals.length = args.length := by
      have := congrArg List.length hv
      simpa using this.symm
    refine ⟨_, buildFrame_eq args vals hv, ?_, ?_⟩
    · simp [← hn]
    · intro i hi
      simp only [List.getD_cons_succ]
      rw [List.getD_append _ _ _ _ (by omega)]
  refine ⟨⟨hfail, hconv⟩, ⟨?_, ?_⟩, buildFrame_first_fail args, sscanHex_iff,
    ⟨sscanHex_empty, sscanHex_bad_start⟩, sscanHex_one_digit, sscanHex_trailing,
    ⟨rfl, rfl⟩, ?_, ?_⟩
  · rintro ⟨x, hx, hsh⟩
    exact hfail ⟨x, hx, (sscanHex_none_iff x).mpr hsh⟩
  · intro h
    obtain ⟨x, hx, hn⟩ := hconv h
    exact ⟨x, hx, (sscanHex_none_iff x).mp hn⟩
  · intro vals hsh
    exact hok vals (map_of_forall₂_shape args vals hsh)
  · intro vals htwo
    exact hok vals (map_sscanHex_twoHex args vals htwo)

theorem hex_token_validation_witness :
    ((∃ x ∈ ["21", "", "02"], sscanHex x = none) ∧
      ["2A", "0f"].map twoHexValue = [0x2a, 0x0f].map some) ∧
    (∃ pre x post, ["21", "", "02"] = pre ++ x :: post ∧ (∀ y ∈ pre, sscanHex y ≠ none) ∧
      sscanHex x = none ∧ buildFrame ["21", "", "02"] = .error (.parseFailed x)) ∧
    (∃ frame, buildFrame ["2A", "0f"] = .ok frame ∧
      (frame.drop 2).take ["2A", "0f"].length = [0x2a, 0x0f] ∧
      ∀ i, i < ["2A", "0f"].length → frame.getD (i + 2) 0 = [0x2a, 0x0f].getD i 0) :=
  ⟨⟨by decide, by decide⟩,
    (hex_token_validation ["21", "", "02"]).2.2.1 (by decide),
    (hex_token_validation ["2A", "0f"]).2.2.2.2.2.2.2.2.2 [0x2a, 0x0f] (by decide)⟩

/-- C17 (canonical encoding): for every input of bytes on which `processResponse`
succeeds, returning `s` and printing the line of `s`, `c` and `p`, the bytes it has
consumed are exactly the frame `buildFrame` returns for `(s, c, p)`. -/
theorem canonical_encoding (w : World) (s : Nat) (h : (processResponse w).1 = .ok s)
    (hbytes : ∀ b ∈ w.input, b < 256) :
    ∃ c p frame, buildFrame (hexArgs s c p) = .ok frame ∧
      w.input = frame ++ (processResponse w).2.input ∧
      (processResponse w).2.out = w.out ++ frameLine s c p := by
  obtain ⟨len, c, p, fcs, hin, hp, hx, hout⟩ := processResponse_ok (fst_ok h)
  subst hp; subst hx
  have hs : s < 256 := hbytes s (by rw [hin]; simp)
  have hc : c < 256 := hbytes c (by rw [hin]; simp)
  have hl : p.length < 256 := hbytes p.length (by rw [hin]; simp)
  have hpb : ∀ b ∈ p, b < 256 := by
    intro b hb
    apply hbytes
    rw [hin]
    simp only [List.mem_cons, List.mem_append]
    right; right; right; right; left; exact hb
  refine ⟨c, p, _, buildFrame_hexArgs s c p hs hc hpb (by omega), ?_, hout⟩
  rw [hin]
  simp

theorem canonical_encoding_witness :
    ((processResponse ⟨[0xfe, 0x02, 0x21, 0x02, 0x01, 0x0a, 0x2a], [], ""⟩).1 = .ok 0x21 ∧
      (∀ b ∈ (World.mk [0xfe, 0x02, 0x21, 0x02, 0x01, 0x0a, 0x2a] [] "").input, b < 256)) ∧
    ∃ c p frame, buildFrame (hexArgs 0x21 c p) = .ok frame ∧
      (World.mk [0xfe, 0x02, 0x21, 0x02, 0x01, 0x0a, 0x2a] [] "").input =
        frame ++ (processResponse ⟨[0xfe, 0x02, 0x21, 0x02, 0x01, 0x0a, 0x2a], [], ""⟩).2.input ∧
      (processResponse ⟨[0xfe, 0x02, 0x21, 0x02, 0x01, 0x0a, 0x2a], [], ""⟩).2.out =
        (World.mk [0xfe, 0x02, 0x21, 0x02, 0x01, 0x0a, 0x2a] [] "").out ++
          frameLine 0x21 c p :=
  ⟨⟨accept_example, by decide⟩,
    canonical_encoding ⟨[0xfe, 0x02, 0x21, 0x02, 0x01, 0x0a, 0x2a], [], ""⟩ 0x21
      accept_example (by decide)⟩

/-! ## Facts about the match condition -/

theorem matchLoop_step (r : Nat) (w : World) :
    matchLoop r w =
      match processResponse w with
      | (.error e, w') => (.error e, w')
      | (.ok x, w') => if responseMatches r x then (.ok (), w') else matchLoop r w' := by
  conv_lhs => rw [matchLoop]
  split
  · rename_i e w' heq
    rw [heq]
  · rename_i x w' heq
    rw [heq]
    rfl

theorem testBit_or_32 (r i : Nat) (hi : i ≠ 5) : (r ||| 0x20).testBit i = r.testBit i := by
  have h32 : (0x20 : Nat).testBit i = false := by
    show (2 ^ 5).testBit i = false
    rw [Nat.testBit_two_pow]
    simp
    omega
  rw [Nat.testBit_or, h32, Bool.or_false]

theorem or_32_of_testBit (r : Nat) (h : r.testBit 5 = true) : r ||| 0x20 = r := by
  apply Nat.eq_of_testBit_eq
  intro i
  by_cases hi : i = 5
  · subst hi
    rw [Nat.testBit_or, h, Bool.true_or]
  · exact testBit_or_32 r i hi

theorem mod_32_of_testBit (x r : Nat) (h : ∀ i, i ≠ 5 → x.testBit i = r.testBit i) :
    x % 32 = r % 32 := by
  apply Nat.eq_of_testBit_eq
  intro i
  show (x % 2 ^ 5).testBit i = (r % 2 ^ 5).testBit i
  rw [Nat.testBit_mod_two_pow, Nat.testBit_mod_two_pow]
  by_cases hi : i < 5
  · rw [h i (by omega)]
  · simp [hi]

/-- C18 (subsystem identity of a matched response): the condition on which the loop of
`main` stops, `x == r|0x20 || x == r`, holds only if `x` and `r` agree on every bit other
than bit `0x20` (bit 5), so that they have the same low five bits; when `r` has bit `0x20`
set the only byte that matches is `r` itself; and on a valid frame with subsystem byte `x`
the loop stops or goes on according to this condition alone, whatever the command id and
the payload of the frame. -/
theorem subsystem_identity (r x : Nat) :
    (responseMatches r x →
      (∀ i, i ≠ 5 → x.testBit i = r.testBit i) ∧ x % 32 = r % 32 ∧
      x &&& 0x1f = r &&& 0x1f) ∧
    (r.testBit 5 = true → (responseMatches r x ↔ x = r)) ∧
    (∀ (f : Frame) (rest : List Nat) (script : List ReadEvent) (out : String),
      f.Valid → Steady script → f.sub = x →
      (responseMatches r x →
        ∃ w', matchLoop r ⟨f.wire ++ rest, script, out⟩ = (.ok (), w') ∧
          w'.input = rest ∧ w'.out = out ++ f.line) ∧
      (¬ responseMatches r x →
        ∃ w1, w1.input = rest ∧ w1.out = out ++ f.line ∧
          matchLoop r ⟨f.wire ++ rest, script, out⟩ = matchLoop r w1)) := by
  refine ⟨?_, ?_, ?_⟩
  · intro hm
    have hbits : ∀ i, i ≠ 5 → x.testBit i = r.testBit i := by
      intro i hi
      rcases hm with h | h
      · rw [h]; exact testBit_or_32 r i hi
      · rw [h]
    have hmod := mod_32_of_testBit x r hbits
    refine ⟨hbits, hmod, ?_⟩
    have e : (0x1f : Nat) = 2 ^ 5 - 1 := rfl
    rw [e, Nat.and_pow_two_sub_one_eq_mod, Nat.and_pow_two_sub_one_eq_mod]
    exact hmod
  · intro h5
    unfold responseMatches
    rw [or_32_of_testBit r h5]
    simp
  · intro f rest script out hf hs hsub
    obtain ⟨w1, h1, h2, h3, -⟩ :=
      processResponse_wire ⟨f.wire ++ rest, script, out⟩ f rest hf hs rfl
    rw [hsub] at h1
    constructor
    · intro hm
      refine ⟨w1, ?_, h2, h3⟩
      rw [matchLoop_step, h1]
      simp only []
      rw [if_pos hm]
    · intro hm
      refine ⟨w1, h2, h3, ?_⟩
      rw [matchLoop_step, h1]
      simp only []
      rw [if_neg hm]

theorem subsystem_identity_witness :
    (responseMatches 0x01 0x21 ∧ (0x61 : Nat).testBit 5 = true ∧
      (Frame.mk 0x41 0x80 [0x02]).Valid ∧ Steady [.delivers 1] ∧
      ¬ responseMatches 0x21 0x41) ∧
    ((∀ i, i ≠ 5 → (0x21 : Nat).testBit i = (0x01 : Nat).testBit i) ∧
      0x21 % 32 = 0x01 % 32 ∧ 0x21 &&& 0x1f = 0x01 &&& 0x1f) ∧
    (responseMatches 0x61 0x41 ↔ 0x41 = 0x61) ∧
    (∃ w1, w1.input = [0xfe] ∧ w1.out = "" ++ (Frame.mk 0x41 0x80 [0x02]).line ∧
      matchLoop 0x21 ⟨(Frame.mk 0x41 0x80 [0x02]).wire ++ [0xfe], [.delivers 1], ""⟩ =
        matchLoop 0x21 w1) :=
  ⟨⟨by decide, by decide, by decide, by decide, by decide⟩,
    (subsystem_identity 0x01 0x21).1 (by decide),
    (subsystem_identity 0x61 0x41).2.1 (by decide),
    ((subsystem_identity 0x21 0x41).2.2 (Frame.mk 0x41 0x80 [0x02]) [0xfe] [.delivers 1] ""
      (by decide) (by decide) rfl).2 (by decide)⟩

/-! ## Facts about the indices `buildFrame` writes -/

theorem writeIndices_eq (n : Nat) :
    writeIndices n = (List.range (n + 3)).map (fun (i : Nat) => (i : Int)) := by
  unfold writeIndices
  rw [List.range_succ, List.range_succ_eq_map, List.range_succ_eq_map]
  simp only [List.map_cons, List.map_map, List.map_append, List.cons_append,
    List.map_nil, List.nil_append]
  have e1 : List.map (fun (i : Nat) => (i : Int) + 2) (List.range n) =
      List.map ((fun (i : Nat) => (i : Int)) ∘ Nat.succ ∘ Nat.succ) (List.range n) := by
    apply List.map_congr_left
    intro i _
    simp only [Function.comp, Nat.succ_eq_add_one]
    omega
  have e2 : ((n : Int) - 2 + 4) = ((n + 2 : Nat) : Int) := by omega
  rw [e1, e2]
  rfl

/-! ## Facts about the writes of `buildFrame` -/

/-- Without its record of writes, the loop of `buildFrameLog` is the loop of `buildFrame`. -/
theorem buildLoopLog_erase : ∀ (args : List String) (i : Nat)
    (fw : List Nat × List (Int × Nat)) (xor : Nat),
    (match buildLoopLog args i fw xor with
      | .ok r => Except.ok (r.1.1, r.2)
      | .error e => Except.error e) = buildLoop args i fw.1 xor := by
  intro args
  induction args with
  | nil => intro i fw xor; rfl
  | cons x rest ih =>
    intro i fw xor
    rw [buildLoopLog, buildLoop]
    by_cases hlt : i + 2 < fw.1.length
    · rw [if_pos hlt, if_pos hlt]
      cases hx : sscanHex x with
      | none => rfl
      | some v => exact ih (i + 1) _ (xor ^^^ v)
    · rw [if_neg hlt, if_neg hlt]

theorem putIdx_ok (fw : List Nat × List (Int × Nat)) (i : Int) (v : Nat) (k : Nat)
    (hi : i = (k : Int)) (hk : k < fw.1.length) :
    putIdx fw i v = .ok (fw.1.set k v, fw.2 ++ [(i, v)]) := by
  unfold putIdx
  rw [setIdx_ok fw.1 i v k hi hk]

theorem putIdx_erase (fw : List Nat × List (Int × Nat)) (i : Int) (v : Nat) :
    eraseLog (putIdx fw i v) = setIdx fw.1 i v := by
  unfold putIdx
  cases setIdx fw.1 i v <;> rfl

/-- The frame and the record `buildFrameLog` hands to its loop. -/
theorem buildFrameLog_unfold (args : List String) :
    buildFrameLog args =
      match buildLoopLog args 0
          (0xfe :: (((args.length : Int) - 2) % 256).toNat ::
            (List.replicate args.length 0 ++ [0]),
            [((0 : Int), 0xfe), ((1 : Int), (((args.length : Int) - 2) % 256).toNat)])
          (((args.length : Int) - 2) % 256).toNat with
      | .error e => .error e
      | .ok (fw, xor) => putIdx fw ((args.length : Int) - 2 + 4) xor := by
  have h5 : ((args.length : Int) - 2 + 5).toNat = args.length + 3 := by omega
  have hrep : List.replicate (args.length + 3) 0 =
      0 :: 0 :: (List.replicate args.length 0 ++ [0]) := by
    rw [List.replicate_succ, List.replicate_succ, List.replicate_succ']
  unfold buildFrameLog
  simp only []
  rw [if_neg (by omega), h5, hrep, putIdx_ok _ 0 0xfe 0 rfl (by simp)]
  simp only [List.set_cons_zero]
  rw [putIdx_ok _ 1 _ 1 rfl (by simp)]
  simp only [List.set_cons_succ, List.set_cons_zero, List.nil_append, List.cons_append]

/-- Without its record of writes, `buildFrameLog` is `buildFrame`, on every argument list. -/
theorem buildFrameLog_erase (args : List String) :
    eraseLog (buildFrameLog args) = buildFrame args := by
  rw [buildFrameLog_unfold, buildFrame_unfold]
  have h := buildLoopLog_erase args 0
    (0xfe :: (((args.length : Int) - 2) % 256).toNat ::
      (List.replicate args.length 0 ++ [0]),
      [((0 : Int), 0xfe), ((1 : Int), (((args.length : Int) - 2) % 256).toNat)])
    (((args.length : Int) - 2) % 256).toNat
  simp only [] at h
  rw [← h]
  cases buildLoopLog args 0 _ _ with
  | error e => rfl
  | ok r =>
    obtain ⟨fw, xor⟩ := r
    exact putIdx_erase fw _ xor

/-- The loop of `buildFrameLog` on tokens that all scan: it writes the values, in order,
at the indices from `i + 2` on, and records each of these writes. -/
theorem buildLoopLog_eq : ∀ (args : List String) (vals : List Nat) (i : Nat)
    (pre zs post : List Nat) (log : List (Int × Nat)) (xor : Nat),
    args.map sscanHex = vals.map some → pre.length = i + 2 → zs.length = args.length →
    buildLoopLog args i (pre ++ (zs ++ post), log) xor =
      .ok ((pre ++ (vals ++ post), log ++ loopWrites i vals),
        vals.foldl (fun x v => x ^^^ v) xor) := by
  intro args
  induction args with
  | nil =>
    intro vals i pre zs post log xor hv _ hz
    cases vals with
    | nil =>
      have : zs = [] := List.length_eq_zero.mp hz
      subst this
      simp [buildLoopLog, loopWrites]
    | cons v vs => simp at hv
  | cons x rest ih =>
    intro vals i pre zs post log xor hv hpre hz
    cases vals with
    | nil => simp at hv
    | cons v vs =>
      cases zs with
      | nil => simp at hz
      | cons z zs =>
        simp only [List.map_cons, List.cons.injEq] at hv
        obtain ⟨hx, hrest⟩ := hv
        have hlt : i + 2 < (pre ++ (z :: zs ++ post)).length := by
          simp only [List.length_append, List.length_cons]
          omega
        have hset : (pre ++ (z :: zs ++ post)).set (i + 2) v =
            (pre ++ [v]) ++ (zs ++ post) := by
          rw [List.set_append_right _ _ (by omega), hpre]
          simp
        rw [buildLoopLog]
        simp only []
        rw [if_pos hlt, hx]
        simp only []
        rw [hset, ih vs (i + 1) (pre ++ [v]) zs post _ (xor ^^^ v) hrest
          (by simp only [List.length_append, List.length_cons, List.length_nil]; omega)
          (by simpa using hz)]
        simp [loopWrites]

/-- The frame and the record of writes `buildFrameLog` returns when every token scans. -/
theorem buildFrameLog_eq (args : List String) (vals : List Nat)
    (hv : args.map sscanHex = vals.map some) :
    buildFrameLog args =
      .ok (0xfe :: (((args.length : Int) - 2) % 256).toNat ::
          (vals ++ [vals.foldl (fun x v => x ^^^ v) (((args.length : Int) - 2) % 256).toNat]),
        ((0 : Int), 0xfe) :: ((1 : Int), (((args.length : Int) - 2) % 256).toNat) ::
          (loopWrites 0 vals ++ [((args.length : Int) - 2 + 4,
            vals.foldl (fun x v => x ^^^ v) (((args.length : Int) - 2) % 256).toNat)])) := by
  have hn : vals.length = args.length := by
    have := congrArg List.length hv
    simpa using this.symm
  have hl := buildLoopLog_eq args vals 0 [0xfe, (((args.length : Int) - 2) % 256).toNat]
    (List.replicate args.length 0) [0]
    [((0 : Int), 0xfe), ((1 : Int), (((args.length : Int) - 2) % 256).toNat)]
    (((args.length : Int) - 2) % 256).toNat hv rfl (by simp)
  simp only [List.cons_append, List.nil_append] at hl
  rw [buildFrameLog_unfold, hl]
  simp only []
  rw [putIdx_ok _ _ _ (args.length + 2) (by omega) (by simp; omega)]
  have hlast : ∀ (a b x : Nat), (a :: b :: (vals ++ [0])).set (args.length + 2) x =
      a :: b :: (vals ++ [x]) := by
    intro a b x
    have e : args.length + 2 = vals.length + 1 + 1 := by omega
    rw [e]
    simp only [List.set_cons_succ]
    rw [List.set_append_right _ _ (le_refl _)]
    simp
  simp only [hlast, List.cons_append, List.append_assoc]

theorem loopWrites_indices : ∀ (vals : List Nat) (i : Nat),
    (loopWrites i vals).map Prod.fst =
      (List.range vals.length).map (fun (k : Nat) => (k : Int) + ((i : Int) + 2)) := by
  intro vals
  induction vals with
  | nil => intro i; rfl
  | cons v vs ih =>
    intro i
    rw [loopWrites, List.length_cons, List.range_succ_eq_map]
    simp only [List.map_cons, List.map_map, ih (i + 1)]
    congr 1
    · simp
    · apply List.map_congr_left
      intro k _
      simp only [Function.comp, Nat.succ_eq_add_one]
      push_cast
      omega

theorem loopWrites_mem : ∀ (vals : List Nat) (i : Nat) (w : Int × Nat),
    w ∈ loopWrites i vals →
    ∃ k, k < vals.length ∧ w.1 = ((i + 2 + k : Nat) : Int) ∧ vals.getD k 0 = w.2 := by
  intro vals
  induction vals with
  | nil => intro i w h; simp [loopWrites] at h
  | cons v vs ih =>
    intro i w h
    rw [loopWrites] at h
    rcases List.mem_cons.mp h with e | e
    · exact ⟨0, by simp, by rw [e], by rw [e]; rfl⟩
    · obtain ⟨k, hk, h1, h2⟩ := ih (i + 1) w e
      refine ⟨k + 1, by simpa using hk, ?_, ?_⟩
      · rw [h1]; push_cast; omega
      · simpa using h2

/-- C19 as stated fails in its last part: with no argument `buildFrame` allocates three
bytes and writes the indices 0, 1 and 2, and with one argument it allocates four bytes
and writes the indices 0 to 3; the allocation and the fcs index are valid and the call
returns, with a length byte that has wrapped to `0xFE` or `0xFF`. -/
theorem encoder_safety_counterexample :
    buildFrame [] = .ok [0xfe, 0xfe, 0xfe] ∧
    buildFrameLog [] = .ok ([0xfe, 0xfe, 0xfe], [(0, 0xfe), (1, 0xfe), (2, 0xfe)]) ∧
    buildFrame ["21"] = .ok [0xfe, 0xff, 0x21, 0xff ^^^ 0x21] ∧
    buildFrameLog ["21"] =
      .ok ([0xfe, 0xff, 0x21, 0xff ^^^ 0x21],
        [(0, 0xfe), (1, 0xff), (2, 0x21), (3, 0xff ^^^ 0x21)]) :=
  ⟨rfl, rfl, rfl, rfl⟩

/-- C19 (amended): for every argument list whose tokens scan, `buildFrame` returns a frame
of `length + 5` bytes; the indices it writes are, in order, 0, 1, `i + 2` for each
argument and `length + 4`; each lies within the frame, no two writes hit the same index,
and the frame returned holds at each of these indices the value written there. With
`2 ≤ len(args) ≤ 257`, the range `main` lets through, the conversion of `length` to a byte
does not truncate and the length byte is `len(args) - 2` exactly. With fewer than 2
arguments the allocation and every index, the fcs index included, are still valid; only
the length byte wraps modulo 256, to `254 + len(args)`. The writes are those recorded by
`buildFrameLog`, which without its record is `buildFrame` on every argument list. -/
theorem encoder_safety (args : List String) (vals : List Nat)
    (hv : args.map sscanHex = vals.map some) :
    eraseLog (buildFrameLog args) = buildFrame args ∧
    ∃ frame writes, buildFrameLog args = .ok (frame, writes) ∧
      buildFrame args = .ok frame ∧
      (frame.length : Int) = ((args.length : Int) - 2) + 5 ∧
      writes.map Prod.fst = writeIndices args.length ∧
      (∀ w ∈ writes, 0 ≤ w.1 ∧ w.1 < (frame.length : Int) ∧
        frame.getD w.1.toNat 0 = w.2) ∧
      (writes.map Prod.fst).Nodup ∧
      writes.length = frame.length ∧
      (2 ≤ args.length → args.length ≤ 257 →
        ((args.length : Int) - 2) % 256 = (args.length : Int) - 2 ∧
        frame.getD 1 0 = args.length - 2) ∧
      (args.length < 2 → frame.getD 1 0 = 254 + args.length) := by
  have hn : vals.length = args.length := by
    have := congrArg List.length hv
    simpa using this.symm
  have hidx : List.map Prod.fst
      (((0 : Int), 0xfe) :: ((1 : Int), (((args.length : Int) - 2) % 256).toNat) ::
        (loopWrites 0 vals ++ [((args.length : Int) - 2 + 4,
          vals.foldl (fun x v => x ^^^ v) (((args.length : Int) - 2) % 256).toNat)])) =
      writeIndices args.length := by
    simp only [List.map_cons, List.map_append, List.map_nil, loopWrites_indices, hn]
    unfold writeIndices
    congr 3
  refine ⟨buildFrameLog_erase args, _, _, buildFrameLog_eq args vals hv,
    buildFrame_eq args vals hv, ?_, hidx, ?_, ?_, ?_, ?_, ?_⟩
  · simp only [List.length_cons, List.length_append, List.length_nil, hn]
    omega
  · intro w hw
    simp only [List.mem_cons, List.mem_append, List.mem_singleton, List.not_mem_nil,
      or_false] at hw
    simp only [List.length_cons, List.length_append, List.length_nil, hn]
    rcases hw with e | e | e | e
    · subst e
      exact ⟨by simp, by simp only []; omega, rfl⟩
    · subst e
      exact ⟨by simp, by simp only []; omega, rfl⟩
    · obtain ⟨k, hk, h1, h2⟩ := loopWrites_mem vals 0 w e
      rw [h1]
      refine ⟨by omega, by omega, ?_⟩
      rw [Int.toNat_ofNat]
      have e2 : 0 + 2 + k = k + 1 + 1 := by omega
      rw [e2]
      simp only [List.getD_cons_succ]
      rw [List.getD_append _ _ _ _ hk]
      exact h2
    · subst e
      refine ⟨by omega, by omega, ?_⟩
      have e2 : ((args.length : Int) - 2 + 4).toNat = vals.length + 1 + 1 := by omega
      simp only [e2, List.getD_cons_succ]
      rw [List.getD_append_right _ _ _ _ (le_refl _)]
      simp
  · rw [hidx, writeIndices_eq]
    exact (List.nodup_range _).map (fun a b h => by exact_mod_cast h)
  · simp only [List.length_cons, List.length_append, List.length_nil]
    have : (loopWrites 0 vals).length = vals.length := by
      have := congrArg List.length (loopWrites_indices vals 0)
      simpa using this
    omega
  · intro h2 h257
    simp only [List.getD_cons_succ, List.getD_cons_zero]
    omega
  · intro h2
    simp only [List.getD_cons_succ, List.getD_cons_zero]
    omega

theorem encoder_safety_witness :
    (["21", "02", "01"].map sscanHex = [0x21, 0x02, 0x01].map some) ∧
    (buildFrameLog ["21", "02", "01"] =
      .ok ([0xfe, 0x01, 0x21, 0x02, 0x01, 0x23],
        [(0, 0xfe), (1, 0x01), (2, 0x21), (3, 0x02), (4, 0x01), (5, 0x23)])) ∧
    eraseLog (buildFrameLog ["21", "02", "01"]) = buildFrame ["21", "02", "01"] ∧
    ∃ frame writes, buildFrameLog ["21", "02", "01"] = .ok (frame, writes) ∧
      buildFrame ["21", "02", "01"] = .ok frame ∧
      (frame.length : Int) = ((["21", "02", "01"].length : Int) - 2) + 5 ∧
      writes.map Prod.fst = writeIndices ["21", "02", "01"].length ∧
      (∀ w ∈ writes, 0 ≤ w.1 ∧ w.1 < (frame.length : Int) ∧
        frame.getD w.1.toNat 0 = w.2) ∧
      (writes.map Prod.fst).Nodup ∧
      writes.length = frame.length ∧
      (2 ≤ ["21", "02", "01"].length → ["21", "02", "01"].length ≤ 257 →
        ((["21", "02", "01"].length : Int) - 2) % 256 =
          (["21", "02", "01"].length : Int) - 2 ∧
        frame.getD 1 0 = ["21", "02", "01"].length - 2) ∧
      (["21", "02", "01"].length < 2 → frame.getD 1 0 = 254 + ["21", "02", "01"].length) :=
  ⟨by decide, rfl, encoder_safety ["21", "02", "01"] [0x21, 0x02, 0x01] (by decide)⟩

end CC2530
